import Mathlib

/-!
# Lowering of boolean expressions to the implication matrix (`sat-expression.c`)

A shallow embedding of the variable registry, the expression tree builders and
the lowering pass of `src/c/sat-expression.c`.

Modelling conventions.

* A `sat_expression_variable *` is a `VarRef`: the address of a variable record.
  All records ever obtained from `calloc` are kept, in allocation order, in
  `Session.heap`, and the address of a record is its position there.  `NULL` is
  `none` of an `Option`.
* The `next`-linked list `yy_sat_variables` is the list of the addresses of its
  cells, head first.
* A C string is a `String`; `strcmp(a, b) == 0` is equality of contents.
* `yy_id_counter` and `uid` are natural numbers, and `calloc` succeeds.  The
  `unsigned int` counter of the program wraps at `2 ^ 32`, and `sprintf` with
  `%d` prints an identity as its decimal digits below `2 ^ 31` only: the
  theorems `C6`, `C8`, `C10`, `C18` and `C19`, which depend on the value of the
  counter or on the digits of a generated name, carry the bound as a hypothesis.
* A function returns `none` where the C program has no defined result: a failed
  `assert`, a dereferenced dangling or `NULL` pointer, or a read of a union
  member other than the one last stored.
* The implication matrix is external; it is represented by the sequence of the
  calls it has received.
* An expression node is a value: a tree holds its children, and no node record
  is shared between two parents.  The functions that destroy nodes and
  assignments return, with the session, the list of the blocks they hand to
  `free`.
* `ceil(log10(id))` is taken over the reals, where it is `Nat.clog 10 id`.
* A session of the front end (`Workshop`) is any sequence of calls of the
  registry functions and of the builders, each builder consuming the nodes it
  is given as children.
-/

namespace Sat

/-! ## Data model -/

/-- Modelled from the spec: the operator codes of `sat_binary_op`, declared in
`imp-matrix.h`, which is not among the sources.  These are the nine constants
`sat-expression.c` uses, taken as pairwise distinct codes. -/
inductive sat_binary_op where
  | SAT_AND
  | SAT_OR
  | SAT_XOR
  | SAT_NAND
  | SAT_NOR
  | SAT_NXOR
  | SAT_EQ
  | SAT_NOT
  | SAT_NOP
  deriving DecidableEq, Repr

/-- The `enum t_sat_expression_node_type` of `sat-expression.h`. -/
inductive sat_expression_node_type where
  | SAT_EXPRESSION_LEAF
  | SAT_EXPRESSION_NODE
  deriving DecidableEq, Repr

open sat_binary_op sat_expression_node_type

/-- Unique identifier of a variable (`sat_var_idx`). -/
abbrev sat_var_idx := Nat

/-- Friendly name of a variable (`sat_var_name`, a C string). -/
abbrev sat_var_name := String

/-- Address of a `sat_expression_variable` record. -/
abbrev VarRef := Nat

/-- The record `struct t_sat_expression_variable`, with the fields
`sat-expression.c` reads and writes.  The `next` link is carried by
`Session.yy_sat_variables`. -/
structure sat_expression_variable where
  uid : sat_var_idx
  name : Option sat_var_name
  can_be_0 : Bool
  can_be_1 : Bool
  check_domain : Bool
  expect_0 : Bool
  expect_1 : Bool
  deriving DecidableEq, Repr

/-- The global state of `sat-expression.c`: the identity counter, the linked
list of named variables, and the variable records allocated so far. -/
structure Session where
  yy_id_counter : Nat
  yy_sat_variables : List VarRef
  heap : List sat_expression_variable
  deriving DecidableEq, Repr

/-- The state of a process that has not called the registry yet. -/
def Session.fresh : Session :=
  { yy_id_counter := 0, yy_sat_variables := [], heap := [] }

/-- The record `struct t_sat_expression_node`.  The three constructors are the
three members of the union `node`; each also carries the fields `node_type`,
`op_type` and `ir` of the record. -/
inductive sat_expression_node where
  | leaf_variable (node_type : sat_expression_node_type) (op_type : sat_binary_op)
      (ir : VarRef) (leaf_variable : VarRef)
  | unary_operands (node_type : sat_expression_node_type) (op_type : sat_binary_op)
      (ir : VarRef) (rhs : sat_expression_node)
  | binary_operands (node_type : sat_expression_node_type) (op_type : sat_binary_op)
      (ir : VarRef) (lhs rhs : sat_expression_node)
  deriving DecidableEq, Repr

/-- Field `node_type` of a node. -/
def sat_expression_node.node_type : sat_expression_node → sat_expression_node_type
  | .leaf_variable t _ _ _ => t
  | .unary_operands t _ _ _ => t
  | .binary_operands t _ _ _ _ => t

/-- Field `op_type` of a node. -/
def sat_expression_node.op_type : sat_expression_node → sat_binary_op
  | .leaf_variable _ o _ _ => o
  | .unary_operands _ o _ _ => o
  | .binary_operands _ o _ _ _ => o

/-- Field `ir` of a node. -/
def sat_expression_node.ir : sat_expression_node → VarRef
  | .leaf_variable _ _ i _ => i
  | .unary_operands _ _ i _ => i
  | .binary_operands _ _ i _ _ => i

/-- The record `struct t_sat_assignment` (`variable`, `expression`); the `next`
link is carried by the list that holds the assignments. -/
structure sat_assignment where
  variable_ : VarRef
  expression : sat_expression_node
  deriving DecidableEq, Repr

/-! ## The implication matrix, seen from this file -/

/-- Modelled from the spec: one call received by the implication matrix, whose
implementation (`imp-matrix.c`) is not among the sources.  The spec gives the
interface `set_domain(id, admits_0, admits_1)` and
`add_relation(result_id, left_id, op, right_id)`. -/
inductive MatrixCall where
  | set_domain (id : sat_var_idx) (admits_0 admits_1 : Bool)
  | add_relation (result_id left_id : sat_var_idx) (op : sat_binary_op)
      (right_id : sat_var_idx)
  deriving DecidableEq, Repr

/-- Modelled from the spec: the implication matrix is the sequence of the calls
it has received, oldest first. -/
abbrev sat_imp_matrix := List MatrixCall

/-- Modelled from the spec: `sat_set_domain` of the matrix interface, recorded
as a call. -/
def sat_set_domain (matrix : sat_imp_matrix) (id : sat_var_idx) (b0 b1 : Bool) :
    sat_imp_matrix :=
  matrix ++ [MatrixCall.set_domain id b0 b1]

/-- Modelled from the spec: `sat_add_relation` of the matrix interface, recorded
as a call. -/
def sat_add_relation (matrix : sat_imp_matrix) (result_id left_id : sat_var_idx)
    (op : sat_binary_op) (right_id : sat_var_idx) : sat_imp_matrix :=
  matrix ++ [MatrixCall.add_relation result_id left_id op right_id]

/-! ## Variable registry -/

/-- The function `sat_get_variable_count`. -/
def sat_get_variable_count (s : Session) : Nat :=
  s.yy_id_counter

/-- The function `sat_expression_var_id_to_name`: the string written by
`sprintf(tr, "_iv%d", id)`, that is `_iv` followed by the decimal digits of `id`.
The file calls it with `yy_id_counter + 1` only.  This is the string of the
program for `1 ≤ id < 2 ^ 31`, the identities that `%d` prints as they are. -/
def sat_expression_var_id_to_name (id : Nat) : sat_var_name :=
  "_iv" ++ Nat.repr id

/-- The function `sat_new_expression_variable`: a zeroed record with the next
identity and an unrestricted domain; the counter is incremented.  The increment
is that of the program while `yy_id_counter + 1 < 2 ^ 32`. -/
def sat_new_expression_variable (s : Session) : VarRef × Session :=
  (s.heap.length,
   { s with
     yy_id_counter := s.yy_id_counter + 1
     heap := s.heap ++ [{ uid := s.yy_id_counter, name := none,
                           can_be_0 := true, can_be_1 := true,
                           check_domain := false, expect_0 := false,
                           expect_1 := false }] })

/-- The assignment `p -> name = name`. -/
def set_name (heap : List sat_expression_variable) (p : VarRef) (name : sat_var_name) :
    List sat_expression_variable :=
  heap.modify (fun v => { v with name := some name }) p

/-- The `while` loop of `sat_new_named_expression_variable`, entered with
`walker` at the head of the argument list. -/
def named_walk (name : sat_var_name) (s : Session) : List VarRef → Option (VarRef × Session)
  | [] => none
  | walker :: rest =>
    match s.heap[walker]? with
    | none => none
    | some w =>
      match w.name with
      | none => none
      | some wname =>
        if name = wname then
          some (walker, { s with heap := set_name s.heap walker name })
        else
          match rest with
          | [] =>
            let (tr, s1) := sat_new_expression_variable s
            some (tr, { s1 with heap := set_name s1.heap tr name
                                yy_sat_variables := s1.yy_sat_variables ++ [tr] })
          | _ :: _ => named_walk name s rest

/-- The function `sat_new_named_expression_variable`. -/
def sat_new_named_expression_variable (name : sat_var_name) (s : Session) :
    Option (VarRef × Session) :=
  match s.yy_sat_variables with
  | [] =>
    let (tr, s1) := sat_new_expression_variable s
    some (tr, { s1 with heap := set_name s1.heap tr name, yy_sat_variables := [tr] })
  | walker :: rest => named_walk name s (walker :: rest)

/-! ## Expression tree builders -/

/-- The function `sat_new_expression_node`: the fields `node_type` and `ir` of
the new record (`op_type` and the union are filled in by the caller).  The
generated name is that of the program while `yy_id_counter + 1 < 2 ^ 31`. -/
def sat_new_expression_node (node_type : sat_expression_node_type) (ir : Option VarRef)
    (s : Session) : Option ((sat_expression_node_type × VarRef) × Session) :=
  match ir with
  | none =>
    let varname := sat_expression_var_id_to_name (s.yy_id_counter + 1)
    match sat_new_named_expression_variable varname s with
    | none => none
    | some (v, s1) => some ((node_type, v), s1)
  | some v => some ((node_type, v), s)

/-- The function `sat_new_leaf_expression_node`. -/
def sat_new_leaf_expression_node (variable_ : Option VarRef) (s : Session) :
    Option (sat_expression_node × Session) :=
  match variable_ with
  | none => none
  | some v =>
    match sat_new_expression_node SAT_EXPRESSION_LEAF (some v) s with
    | none => none
    | some ((t, ir), s1) => some (sat_expression_node.leaf_variable t SAT_NOP ir v, s1)

/-- The function `sat_new_unary_expression_node`. -/
def sat_new_unary_expression_node (child : Option sat_expression_node)
    (op_type : sat_binary_op) (s : Session) : Option (sat_expression_node × Session) :=
  if op_type = SAT_NOT then
    match child with
    | none => none
    | some c =>
      match sat_new_expression_node SAT_EXPRESSION_NODE none s with
      | none => none
      | some ((t, ir), s1) => some (sat_expression_node.unary_operands t op_type ir c, s1)
  else none

/-- The function `sat_new_binary_expression_node`. -/
def sat_new_binary_expression_node (lhs rhs : Option sat_expression_node)
    (op_type : sat_binary_op) (s : Session) : Option (sat_expression_node × Session) :=
  match rhs, lhs with
  | some r, some l =>
    if op_type = SAT_AND ∨ op_type = SAT_OR ∨ op_type = SAT_NOR ∨
       op_type = SAT_NAND ∨ op_type = SAT_NXOR ∨ op_type = SAT_XOR then
      match sat_new_expression_node SAT_EXPRESSION_NODE none s with
      | none => none
      | some ((t, ir), s1) =>
        some (sat_expression_node.binary_operands t op_type ir l r, s1)
    else none
  | _, _ => none

/-- The function `sat_new_assignment`. -/
def sat_new_assignment (variable_ : Option VarRef) (expression : Option sat_expression_node) :
    Option sat_assignment :=
  match variable_, expression with
  | some v, some e => some { variable_ := v, expression := e }
  | _, _ => none

/-! ## Lowering -/

/-- The function `sat_apply_unary_constraints`. -/
def sat_apply_unary_constraints (heap : List sat_expression_variable)
    (matrix : sat_imp_matrix) (var : VarRef) : Option sat_imp_matrix :=
  match heap[var]? with
  | none => none
  | some v => some (sat_set_domain matrix v.uid v.can_be_0 v.can_be_1)

/-- The function `sat_add_expression_to_imp_matrix`. -/
def sat_add_expression_to_imp_matrix (heap : List sat_expression_variable) (depth : Nat)
    (matrix : sat_imp_matrix) (toadd : sat_expression_node) : Option sat_imp_matrix :=
  if toadd.node_type = SAT_EXPRESSION_LEAF then
    match toadd with
    | .leaf_variable _ _ _ v => sat_apply_unary_constraints heap matrix v
    | _ => none
  else if toadd.op_type = SAT_NOT then
    match toadd with
    | .unary_operands _ _ ir rhs =>
      match sat_add_expression_to_imp_matrix heap (depth + 1) matrix rhs with
      | none => none
      | some m1 =>
        match heap[ir]?, heap[rhs.ir]? with
        | some n, some r => some (sat_add_relation m1 n.uid r.uid SAT_NAND r.uid)
        | _, _ => none
    | _ => none
  else if toadd.op_type = SAT_AND ∨ toadd.op_type = SAT_NAND ∨ toadd.op_type = SAT_OR ∨
          toadd.op_type = SAT_NOR ∨ toadd.op_type = SAT_XOR ∨ toadd.op_type = SAT_NXOR ∨
          toadd.op_type = SAT_AND then
    match toadd with
    | .binary_operands _ op ir lhs rhs =>
      match sat_add_expression_to_imp_matrix heap (depth + 1) matrix rhs with
      | none => none
      | some m1 =>
        match sat_add_expression_to_imp_matrix heap (depth + 1) m1 lhs with
        | none => none
        | some m2 =>
          match heap[ir]?, heap[lhs.ir]?, heap[rhs.ir]? with
          | some n, some l, some r => some (sat_add_relation m2 n.uid l.uid op r.uid)
          | _, _, _ => none
    | _ => none
  else
    some matrix

/-- The function `sat_add_assignment_to_imp_matrix`. -/
def sat_add_assignment_to_imp_matrix (heap : List sat_expression_variable)
    (matrix : sat_imp_matrix) (toadd : sat_assignment) : Option sat_imp_matrix :=
  match sat_apply_unary_constraints heap matrix toadd.variable_ with
  | none => none
  | some m1 =>
    match sat_add_expression_to_imp_matrix heap 0 m1 toadd.expression with
    | none => none
    | some m2 =>
      if toadd.variable_ ≠ toadd.expression.ir then
        match heap[toadd.variable_]?, heap[toadd.expression.ir]? with
        | some v, some e => some (sat_add_relation m2 v.uid e.uid SAT_EQ e.uid)
        | _, _ => none
      else
        some m2

/-! ## Lookup, destruction, expectations, buffer length -/

/-- The `while` loop of `sat_get_variable_from_id`, entered with `walker` at
the head of the argument list; `some none` is the result `NULL`. -/
def from_id_walk (heap : List sat_expression_variable) (id : sat_var_idx) :
    List VarRef → Option (Option VarRef)
  | [] => some none
  | walker :: rest =>
    match heap[walker]? with
    | none => none
    | some w => if w.uid = id then some (some walker) else from_id_walk heap id rest

/-- The function `sat_get_variable_from_id`. -/
def sat_get_variable_from_id (s : Session) (id : sat_var_idx) : Option (Option VarRef) :=
  from_id_walk s.heap id s.yy_sat_variables

/-- A block of memory handed to `free` by this file: the record of a node, the
record of an assignment, the record of a variable, or the name of a variable
(the last two by `sat_free_expression_variable`). -/
inductive Released where
  | node_record (n : sat_expression_node)
  | assignment_record (a : sat_assignment)
  | variable_record (p : VarRef)
  | name_string (p : VarRef)
  deriving DecidableEq, Repr

/-- The function `sat_free_expression_node`, on a pointer that is not `NULL`:
the session it leaves and the blocks it releases, in order. -/
def sat_free_expression_node (s : Session) (tofree : sat_expression_node) :
    Option (Session × List Released) :=
  if tofree.node_type = SAT_EXPRESSION_LEAF then
    some (s, [Released.node_record tofree])
  else if tofree.node_type = SAT_EXPRESSION_NODE then
    if tofree.op_type = SAT_NOT then
      match tofree with
      | .unary_operands _ _ _ rhs =>
        match sat_free_expression_node s rhs with
        | none => none
        | some (s1, r1) => some (s1, r1 ++ [Released.node_record tofree])
      | _ => none
    else
      match tofree with
      | .binary_operands _ _ _ lhs rhs =>
        match sat_free_expression_node s lhs with
        | none => none
        | some (s1, r1) =>
          match sat_free_expression_node s1 rhs with
          | none => none
          | some (s2, r2) => some (s2, r1 ++ r2 ++ [Released.node_record tofree])
      | _ => none
  else
    some (s, [Released.node_record tofree])

/-- The function `sat_free_assignment`.  The argument list is the assignment
`tofree` followed by the chain of its `next` links; the empty list is `NULL`. -/
def sat_free_assignment (s : Session) :
    List sat_assignment → Bool → Option (Session × List Released)
  | [], _ => none
  | tofree :: next, freelist =>
    match (if freelist && !next.isEmpty then sat_free_assignment s next true
           else some (s, [])) with
    | none => none
    | some (s1, r1) =>
      match sat_free_expression_node s1 tofree.expression with
      | none => none
      | some (s2, r2) => some (s2, r1 ++ r2 ++ [Released.assignment_record tofree])

/-- The function `sat_check_expectations`.  The matrix and its query
`sat_value_in_domain` belong to the external interface and are parameters; the
result does not depend on the argument `print_failures`. -/
def sat_check_expectations {M : Type} (sat_value_in_domain : M → sat_var_idx → Bool → Bool)
    (heap : List sat_expression_variable) (var : VarRef) (matrix : M)
    (_print_failures : Bool) : Option Bool :=
  match heap[var]? with
  | none => none
  | some v =>
    if !v.check_domain then some true
    else if (v.expect_0 != sat_value_in_domain matrix v.uid false) ||
            (v.expect_1 != sat_value_in_domain matrix v.uid true) then some false
    else some true

/-- The buffer length `len` of `sat_expression_var_id_to_name`,
`3 + (int)(ceil(log10(id)) + 2)`, with the logarithm and the ceiling taken
exactly: for `id ≥ 1` the ceiling of the real `log10(id)` is `Nat.clog 10 id`. -/
def name_buffer_len (id : Nat) : Nat :=
  3 + (Nat.clog 10 id + 2)

/-- The function `sat_add_expression_to_imp_matrix` together with what it
prints: the second component lists the operator codes written by the warning of
the unknown-operator branch, oldest first. -/
def sat_add_expression_to_imp_matrix_printed (heap : List sat_expression_variable)
    (depth : Nat) (matrix : sat_imp_matrix) (out : List sat_binary_op)
    (toadd : sat_expression_node) : Option (sat_imp_matrix × List sat_binary_op) :=
  if toadd.node_type = SAT_EXPRESSION_LEAF then
    match toadd with
    | .leaf_variable _ _ _ v =>
      match sat_apply_unary_constraints heap matrix v with
      | none => none
      | some m1 => some (m1, out)
    | _ => none
  else if toadd.op_type = SAT_NOT then
    match toadd with
    | .unary_operands _ _ ir rhs =>
      match sat_add_expression_to_imp_matrix_printed heap (depth + 1) matrix out rhs with
      | none => none
      | some (m1, out1) =>
        match heap[ir]?, heap[rhs.ir]? with
        | some n, some r => some (sat_add_relation m1 n.uid r.uid SAT_NAND r.uid, out1)
        | _, _ => none
    | _ => none
  else if toadd.op_type = SAT_AND ∨ toadd.op_type = SAT_NAND ∨ toadd.op_type = SAT_OR ∨
          toadd.op_type = SAT_NOR ∨ toadd.op_type = SAT_XOR ∨ toadd.op_type = SAT_NXOR ∨
          toadd.op_type = SAT_AND then
    match toadd with
    | .binary_operands _ op ir lhs rhs =>
      match sat_add_expression_to_imp_matrix_printed heap (depth + 1) matrix out rhs with
      | none => none
      | some (m1, out1) =>
        match sat_add_expression_to_imp_matrix_printed heap (depth + 1) m1 out1 lhs with
        | none => none
        | some (m2, out2) =>
          match heap[ir]?, heap[lhs.ir]?, heap[rhs.ir]? with
          | some n, some l, some r => some (sat_add_relation m2 n.uid l.uid op r.uid, out2)
          | _, _, _ => none
    | _ => none
  else
    some (matrix, out ++ [toadd.op_type])

/-! ## Vocabulary of the statements -/

/-- The shape of the trees the three builders return: a leaf is tagged
`SAT_EXPRESSION_LEAF` with `SAT_NOP` and is its own `ir`, a unary node carries
`SAT_NOT`, a binary node one of the six binary operators. -/
def builder_shape : sat_expression_node → Bool
  | .leaf_variable t o i v =>
    decide (t = SAT_EXPRESSION_LEAF) && decide (o = SAT_NOP) && decide (i = v)
  | .unary_operands t o _ x =>
    decide (t = SAT_EXPRESSION_NODE) && decide (o = SAT_NOT) && builder_shape x
  | .binary_operands t o _ l r =>
    decide (t = SAT_EXPRESSION_NODE) &&
    decide (o = SAT_AND ∨ o = SAT_OR ∨ o = SAT_NOR ∨ o = SAT_NAND ∨ o = SAT_NXOR ∨ o = SAT_XOR) &&
    builder_shape l && builder_shape r

/-- Every variable reference of the tree (each `ir`, each leaf variable) is the
address of a record of the heap. -/
def refs_valid (heap : List sat_expression_variable) : sat_expression_node → Bool
  | .leaf_variable _ _ i v => decide (i < heap.length) && decide (v < heap.length)
  | .unary_operands _ _ i x => decide (i < heap.length) && refs_valid heap x
  | .binary_operands _ _ i l r =>
    decide (i < heap.length) && refs_valid heap l && refs_valid heap r

/-- Number of leaves of the tree whose variable is `v`. -/
def leaf_occurrences (v : VarRef) : sat_expression_node → Nat
  | .leaf_variable _ _ _ w => if w = v then 1 else 0
  | .unary_operands _ _ _ x => leaf_occurrences v x
  | .binary_operands _ _ _ l r => leaf_occurrences v l + leaf_occurrences v r

/-- The call is a domain restriction of the identity `id`. -/
def restricts (id : sat_var_idx) : MatrixCall → Bool
  | .set_domain i _ _ => decide (i = id)
  | .add_relation _ _ _ _ => false

/-- The name stored in the record at address `p`, if there is one. -/
def stored_name (heap : List sat_expression_variable) (p : VarRef) : Option sat_var_name :=
  match heap[p]? with
  | none => none
  | some v => v.name

/-- The identity stored in the record at address `p`. -/
def stored_uid (heap : List sat_expression_variable) (p : VarRef) : Option sat_var_idx :=
  match heap[p]? with
  | none => none
  | some v => some v.uid

/-- The names read along the list `yy_sat_variables`, head first. -/
def registry_names (s : Session) : List (Option sat_var_name) :=
  s.yy_sat_variables.map (stored_name s.heap)

/-- The identities read along the list `yy_sat_variables`, head first. -/
def registry_uids (s : Session) : List (Option sat_var_idx) :=
  s.yy_sat_variables.map (stored_uid s.heap)

/-- Every cell of `yy_sat_variables` is the address of a record that has a
name: the states in which the walk of `sat_new_named_expression_variable` only
reads defined memory. -/
def registry_ok (s : Session) : Bool :=
  s.yy_sat_variables.all (fun p => (stored_name s.heap p).isSome)

/-- The state after `sat_new_named_expression_variable` has allocated a variable
for `name`, and the address of that variable. -/
def named_fresh (name : sat_var_name) (s : Session) : VarRef × Session :=
  (s.heap.length,
   { yy_id_counter := s.yy_id_counter + 1
     yy_sat_variables := s.yy_sat_variables ++ [s.heap.length]
     heap := s.heap ++ [{ uid := s.yy_id_counter, name := some name,
                          can_be_0 := true, can_be_1 := true,
                          check_domain := false, expect_0 := false,
                          expect_1 := false }] })

/-- One call of the registry: `none` is `sat_new_expression_variable()`,
`some name` is `sat_new_named_expression_variable(name)`. -/
def create (call : Option sat_var_name) (s : Session) : Option (VarRef × Session) :=
  match call with
  | none => some (sat_new_expression_variable s)
  | some name => sat_new_named_expression_variable name s

/-- A sequence of calls of the registry, in order; the result lists the `uid`
read from the variable each call returned. -/
def create_all : List (Option sat_var_name) → Session → Option (List sat_var_idx × Session)
  | [], s => some ([], s)
  | c :: cs, s =>
    match create c s with
    | none => none
    | some (p, s1) =>
      match s1.heap[p]? with
      | none => none
      | some v =>
        match create_all cs s1 with
        | none => none
        | some (ids, s2) => some (v.uid :: ids, s2)

/-- The number of variables a sequence of calls creates: one for each anonymous
call and one for each distinct name. -/
def variables_created (calls : List (Option sat_var_name)) : Nat :=
  (calls.filter (fun c => c.isNone)).length + (calls.filterMap id).dedup.length

/-- The invariant of a session that started in `s0` with an empty registry and
has made the registry calls `calls`: `s` is the state reached, `ids` the
identities the calls returned, `L` the names and `U` the identities read along
the registry list. -/
structure Reached (s0 : Session) (calls : List (Option sat_var_name))
    (ids : List sat_var_idx) (s : Session) (L : List sat_var_name)
    (U : List sat_var_idx) : Prop where
  ok : registry_ok s = true
  names : registry_names s = L.map some
  nodup : L.Nodup
  mem : ∀ x, x ∈ L ↔ some x ∈ calls
  order : L.Pairwise
    (fun x y => (calls.filterMap id).indexOf x < (calls.filterMap id).indexOf y)
  uids : registry_uids s = U.map some
  increasing : U.Pairwise (fun a b => a < b)
  below : ∀ u ∈ U, u < s.yy_id_counter
  count : s.yy_id_counter =
    s0.yy_id_counter + (calls.filter (fun c => c.isNone)).length + L.length
  heap_uids : s.heap.map (fun v => v.uid) =
    s0.heap.map (fun v => v.uid) ++
      List.range' s0.yy_id_counter (s.yy_id_counter - s0.yy_id_counter)
  at_most : s.yy_id_counter ≤ s0.yy_id_counter + calls.length
  all_new : s.yy_id_counter = s0.yy_id_counter + calls.length →
    ids = List.range' s0.yy_id_counter calls.length

/-- The nodes of a tree, children before their parent, left before right. -/
def subtrees : sat_expression_node → List sat_expression_node
  | .leaf_variable t o i v => [.leaf_variable t o i v]
  | .unary_operands t o i x => subtrees x ++ [.unary_operands t o i x]
  | .binary_operands t o i l r => subtrees l ++ subtrees r ++ [.binary_operands t o i l r]

/-- The records owned by one assignment: the nodes of its expression, then the
assignment record. -/
def records_of (a : sat_assignment) : List Released :=
  (subtrees a.expression).map Released.node_record ++ [Released.assignment_record a]

/-- The `ir` variables of the operator nodes of a tree, in the order in which
the lowering registers their relations. -/
def operator_irs : sat_expression_node → List VarRef
  | .leaf_variable _ _ _ _ => []
  | .unary_operands _ _ i x => operator_irs x ++ [i]
  | .binary_operands _ _ i l r => operator_irs r ++ operator_irs l ++ [i]

/-- The variables of the leaves of a tree, in the order in which the lowering
restricts them. -/
def leaf_variables : sat_expression_node → List VarRef
  | .leaf_variable _ _ _ v => [v]
  | .unary_operands _ _ _ x => leaf_variables x
  | .binary_operands _ _ _ l r => leaf_variables r ++ leaf_variables l

/-- The call registers a relation. -/
def is_relation : MatrixCall → Bool
  | .set_domain _ _ _ => false
  | .add_relation _ _ _ _ => true

/-- The call restricts a domain. -/
def is_set_domain : MatrixCall → Bool
  | .set_domain _ _ _ => true
  | .add_relation _ _ _ _ => false

/-- The result identities of the relations of a call sequence, in order. -/
def relation_results : List MatrixCall → List sat_var_idx
  | [] => []
  | .set_domain _ _ _ :: cs => relation_results cs
  | .add_relation res _ _ _ :: cs => res :: relation_results cs

/-- The identities restricted by a call sequence, in order. -/
def restricted_ids : List MatrixCall → List sat_var_idx
  | [] => []
  | .set_domain i _ _ :: cs => i :: restricted_ids cs
  | .add_relation _ _ _ _ :: cs => restricted_ids cs

/-- The identities passed to the matrix by one call. -/
def call_ids : MatrixCall → List sat_var_idx
  | .set_domain i _ _ => [i]
  | .add_relation res l _ r => [res, l, r]

/-- The call makes the identity known to the matrix: it restricts its domain or
registers a relation of which it is the result. -/
def defines (i : sat_var_idx) : MatrixCall → Bool
  | .set_domain j _ _ => decide (j = i)
  | .add_relation res _ _ _ => decide (res = i)

/-- Definition before use: both operands of every relation of the sequence are
made known by a call that comes earlier in the sequence. -/
def defined_before_use (calls : List MatrixCall) : Prop :=
  ∀ (before after : List MatrixCall) (res l : sat_var_idx) (op : sat_binary_op)
    (r : sat_var_idx),
    calls = before ++ MatrixCall.add_relation res l op r :: after →
    (∃ c ∈ before, defines l c = true) ∧ (∃ c ∈ before, defines r c = true)

/-- The identity stored at an address (0 at an address that holds no record). -/
def uid_at (heap : List sat_expression_variable) (p : VarRef) : sat_var_idx :=
  match heap[p]? with
  | some v => v.uid
  | none => 0

/-- The calls the lowering makes for a tree of the builders' shape whose
references are valid (theorem `lowering_emitted`). -/
def emitted (heap : List sat_expression_variable) : sat_expression_node → List MatrixCall
  | .leaf_variable _ _ _ v =>
    match heap[v]? with
    | some w => [MatrixCall.set_domain w.uid w.can_be_0 w.can_be_1]
    | none => []
  | .unary_operands _ _ i x =>
    emitted heap x ++
      [MatrixCall.add_relation (uid_at heap i) (uid_at heap x.ir) SAT_NAND (uid_at heap x.ir)]
  | .binary_operands _ o i l r =>
    emitted heap r ++ emitted heap l ++
      [MatrixCall.add_relation (uid_at heap i) (uid_at heap l.ir) o (uid_at heap r.ir)]

/-- The number of operator (unary or binary) nodes of a tree. -/
def operator_nodes : sat_expression_node → Nat
  | .leaf_variable _ _ _ _ => 0
  | .unary_operands _ _ _ x => operator_nodes x + 1
  | .binary_operands _ _ _ l r => operator_nodes l + operator_nodes r + 1

/-- The number of leaves of a tree. -/
def leaf_count : sat_expression_node → Nat
  | .leaf_variable _ _ _ _ => 1
  | .unary_operands _ _ _ x => leaf_count x
  | .binary_operands _ _ _ l r => leaf_count l + leaf_count r

/-- The node is one the lowering knows: a leaf, a `SAT_NOT` node with one child,
or a node with two children and one of the six binary operators. -/
def known_node : sat_expression_node → Bool
  | .leaf_variable t _ _ _ => decide (t = SAT_EXPRESSION_LEAF)
  | .unary_operands t o _ _ => decide (t = SAT_EXPRESSION_NODE) && decide (o = SAT_NOT)
  | .binary_operands t o _ _ _ =>
    decide (t = SAT_EXPRESSION_NODE) &&
    decide (o = SAT_AND ∨ o = SAT_OR ∨ o = SAT_XOR ∨ o = SAT_NAND ∨ o = SAT_NOR ∨ o = SAT_NXOR)

/-- The name has the form `_iv` followed by one or more decimal digits. -/
def iv_form (name : sat_var_name) : Bool :=
  match name.data with
  | '_' :: 'i' :: 'v' :: d :: ds => (d :: ds).all Char.isDigit
  | _ => false

/-- The front end writes the domain hints and the expectation of a variable
(this is done outside `sat-expression.c`). -/
def set_hints (heap : List sat_expression_variable) (p : VarRef)
    (c0 c1 cd e0 e1 : Bool) : List sat_expression_variable :=
  heap.modify (fun v => { v with can_be_0 := c0, can_be_1 := c1, check_domain := cd,
                                 expect_0 := e0, expect_1 := e1 }) p

/-- A session of the front end.  `Workshop allowed s declared pool` holds when a
sequence of calls started in the fresh state has reached the state `s`, where
`declared` lists the variables the registry returned to the front end when it
declared them and `pool` the trees built so far that are not the child of
another node.  The front end declares only names that satisfy `allowed`, builds
leaves over existing variables, and hands every tree to at most one parent. -/
inductive Workshop (allowed : sat_var_name → Prop) :
    Session → List VarRef → List sat_expression_node → Prop where
  | fresh : Workshop allowed Session.fresh [] []
  | anonymous {s : Session} {declared : List VarRef} {pool : List sat_expression_node} :
      Workshop allowed s declared pool →
      Workshop allowed (sat_new_expression_variable s).2
        ((sat_new_expression_variable s).1 :: declared) pool
  | named {s s1 : Session} {declared : List VarRef} {pool : List sat_expression_node}
      {name : sat_var_name} {p : VarRef} :
      Workshop allowed s declared pool → allowed name →
      sat_new_named_expression_variable name s = some (p, s1) →
      Workshop allowed s1 (p :: declared) pool
  | hints {s : Session} {declared : List VarRef} {pool : List sat_expression_node}
      (p : VarRef) (c0 c1 cd e0 e1 : Bool) :
      Workshop allowed s declared pool →
      Workshop allowed { s with heap := set_hints s.heap p c0 c1 cd e0 e1 } declared pool
  | leaf {s s1 : Session} {declared : List VarRef} {pool : List sat_expression_node}
      {v : VarRef} {n : sat_expression_node} :
      Workshop allowed s declared pool → v < s.heap.length →
      sat_new_leaf_expression_node (some v) s = some (n, s1) →
      Workshop allowed s1 declared (n :: pool)
  | unary {s s1 : Session} {declared : List VarRef} {pool rest : List sat_expression_node}
      {c n : sat_expression_node} {op : sat_binary_op} :
      Workshop allowed s declared pool → pool.Perm (c :: rest) →
      sat_new_unary_expression_node (some c) op s = some (n, s1) →
      Workshop allowed s1 declared (n :: rest)
  | binary {s s1 : Session} {declared : List VarRef} {pool rest : List sat_expression_node}
      {l r n : sat_expression_node} {op : sat_binary_op} :
      Workshop allowed s declared pool → pool.Perm (l :: r :: rest) →
      sat_new_binary_expression_node (some l) (some r) op s = some (n, s1) →
      Workshop allowed s1 declared (n :: rest)

/-! ## Scenarios -/

/-- Scenario A: the names `a`, `b`, `c` are declared in a fresh session, the
tree `AND(a, b)` is built, and the assignment `c := AND(a, b)` is lowered into
an empty matrix.  The result gives the identities of `a`, `b`, `c` and of the
`ir` of the AND node, then the calls the matrix received. -/
def scenario_A :
    Option (sat_var_idx × sat_var_idx × sat_var_idx × sat_var_idx × sat_imp_matrix) :=
  match sat_new_named_expression_variable "a" Session.fresh with
  | none => none
  | some (a, s1) =>
  match sat_new_named_expression_variable "b" s1 with
  | none => none
  | some (b, s2) =>
  match sat_new_named_expression_variable "c" s2 with
  | none => none
  | some (c, s3) =>
  match sat_new_leaf_expression_node (some a) s3 with
  | none => none
  | some (la, s4) =>
  match sat_new_leaf_expression_node (some b) s4 with
  | none => none
  | some (lb, s5) =>
  match sat_new_binary_expression_node (some la) (some lb) SAT_AND s5 with
  | none => none
  | some (n, s6) =>
  match sat_new_assignment (some c) (some n) with
  | none => none
  | some asg =>
  match sat_add_assignment_to_imp_matrix s6.heap [] asg with
  | none => none
  | some m =>
  match s6.heap[a]?, s6.heap[b]?, s6.heap[c]?, s6.heap[n.ir]? with
  | some va, some vb, some vc, some vn => some (va.uid, vb.uid, vc.uid, vn.uid, m)
  | _, _, _, _ => none

/-- The tree `NOT(x)` built in a fresh session in which the only declaration is
the name `first`, the leaf `x` being that variable.  The result gives the
session before and after the call of `sat_new_unary_expression_node`, and the
node it returned. -/
def not_of_declared (first : sat_var_name) :
    Option (Session × Session × sat_expression_node) :=
  match sat_new_named_expression_variable first Session.fresh with
  | none => none
  | some (x, s1) =>
  match sat_new_leaf_expression_node (some x) s1 with
  | none => none
  | some (lx, s2) =>
  match sat_new_unary_expression_node (some lx) SAT_NOT s2 with
  | none => none
  | some (n, s3) => some (s2, s3, n)

/-- The invariant of the sessions in which the front end declares no name of
the form `_iv` followed by digits: a registered generated name carries a number
that the counter has reached, the `ir` variables of the operator nodes of the
pool are pairwise distinct and carry generated names, and the declared
variables carry no generated name. -/
structure AuxInv (s : Session) (declared : List VarRef)
    (pool : List sat_expression_node) : Prop where
  reached : ∀ k, some (sat_expression_var_id_to_name k) ∈ registry_names s →
    k ≤ s.yy_id_counter
  distinct : (pool.flatMap operator_irs).Nodup
  generated : ∀ x ∈ pool.flatMap operator_irs,
    ∃ k, stored_name s.heap x = some (sat_expression_var_id_to_name k)
  plain : ∀ v ∈ declared, ∀ k, stored_name s.heap v ≠ some (sat_expression_var_id_to_name k)

/-- The session reached by declaring `a`, `b`, `c` and building `AND(a, b)`. -/
def and_session : Session :=
  { yy_id_counter := 4
    yy_sat_variables := [0, 1, 2, 3]
    heap := [⟨0, some "a", true, true, false, false, false⟩,
             ⟨1, some "b", true, true, false, false, false⟩,
             ⟨2, some "c", true, true, false, false, false⟩,
             ⟨3, some "_iv4", true, true, false, false, false⟩] }

/-- The tree `AND(a, b)` built in `and_session`. -/
def and_tree : sat_expression_node :=
  .binary_operands SAT_EXPRESSION_NODE SAT_AND 3
    (.leaf_variable SAT_EXPRESSION_LEAF SAT_NOP 0 0)
    (.leaf_variable SAT_EXPRESSION_LEAF SAT_NOP 1 1)

/-! ## Theorems -/

/-- The calls made while lowering a tree do not depend on the depth argument
nor on the calls the matrix received before: they are appended to them. -/
theorem lowering_appends (heap : List sat_expression_variable) (t : sat_expression_node) :
    ∀ (d : Nat) (m : sat_imp_matrix),
      sat_add_expression_to_imp_matrix heap d m t =
        (sat_add_expression_to_imp_matrix heap 0 [] t).map (fun c => m ++ c) := by
  induction t with
  | leaf_variable nt o i v =>
    intro d m
    simp only [sat_add_expression_to_imp_matrix, sat_expression_node.node_type,
      sat_expression_node.op_type, sat_apply_unary_constraints, sat_set_domain]
    split_ifs <;> (try rfl) <;> (cases heap[v]? <;> simp)
  | unary_operands nt o i x ih =>
    intro d m
    simp only [sat_add_expression_to_imp_matrix, sat_expression_node.node_type,
      sat_expression_node.op_type]
    rw [ih (d + 1) m, ih (0 + 1) []]
    split_ifs
    · rfl
    · cases sat_add_expression_to_imp_matrix heap 0 [] x with
      | none => rfl
      | some cx =>
        cases heap[i]? <;> cases heap[x.ir]? <;> simp [sat_add_relation]
    · rfl
    · simp
  | binary_operands nt o i l r ihl ihr =>
    intro d m
    simp only [sat_add_expression_to_imp_matrix, sat_expression_node.node_type,
      sat_expression_node.op_type]
    split_ifs
    · rfl
    · rfl
    · rw [ihr (d + 1) m, ihr (0 + 1) []]
      cases sat_add_expression_to_imp_matrix heap 0 [] r with
      | none => rfl
      | some cr =>
        simp only [Option.map_some']
        rw [ihl (d + 1) (m ++ cr), ihl (0 + 1) ([] ++ cr)]
        cases sat_add_expression_to_imp_matrix heap 0 [] l with
        | none => rfl
        | some cl =>
          cases heap[i]? <;> cases heap[l.ir]? <;> cases heap[r.ir]? <;>
            simp [sat_add_relation]
    · simp

/-- Lowering from any matrix, once the calls made from the empty one are known. -/
theorem lowering_of_calls {heap : List sat_expression_variable} {t : sat_expression_node}
    {c : List MatrixCall} (h : sat_add_expression_to_imp_matrix heap 0 [] t = some c)
    (d : Nat) (m : sat_imp_matrix) :
    sat_add_expression_to_imp_matrix heap d m t = some (m ++ c) := by
  rw [lowering_appends heap t d m, h]; rfl

/-- C1 (binary encoding law).  Lowering a binary node whose operator is one of
AND, OR, XOR, NAND, NOR, NXOR makes the calls made for its right child, then the
calls made for its left child, then the single call
`add_relation(ir(n).uid, ir(l).uid, op, ir(r).uid)`, and nothing else. -/
theorem C1_binary_encoding (heap : List sat_expression_variable) (d : Nat)
    (m : sat_imp_matrix) (op : sat_binary_op) (ir : VarRef) (l r : sat_expression_node)
    (cl cr : List MatrixCall) (n vl vr : sat_expression_variable)
    (hop : op = SAT_AND ∨ op = SAT_OR ∨ op = SAT_XOR ∨ op = SAT_NAND ∨ op = SAT_NOR ∨
      op = SAT_NXOR)
    (hr : sat_add_expression_to_imp_matrix heap 0 [] r = some cr)
    (hl : sat_add_expression_to_imp_matrix heap 0 [] l = some cl)
    (hn : heap[ir]? = some n) (hvl : heap[l.ir]? = some vl) (hvr : heap[r.ir]? = some vr) :
    sat_add_expression_to_imp_matrix heap d m
        (.binary_operands SAT_EXPRESSION_NODE op ir l r) =
      some (m ++ (cr ++ cl ++ [MatrixCall.add_relation n.uid vl.uid op vr.uid])) := by
  have hnot : op ≠ SAT_NOT := by rcases hop with h | h | h | h | h | h <;> simp [h]
  have hbin : op = SAT_AND ∨ op = SAT_NAND ∨ op = SAT_OR ∨ op = SAT_NOR ∨ op = SAT_XOR ∨
      op = SAT_NXOR ∨ op = SAT_AND := by
    rcases hop with h | h | h | h | h | h <;> simp [h]
  simp only [sat_add_expression_to_imp_matrix, sat_expression_node.node_type,
    sat_expression_node.op_type]
  rw [lowering_of_calls hr (d + 1) m, if_neg (by decide), if_neg hnot, if_pos hbin]
  simp only []
  rw [lowering_of_calls hl (d + 1) (m ++ cr), hn, hvl, hvr]
  simp [sat_add_relation]

/-- Witness of C1: `AND(a, b)` over a three-record heap. -/
theorem C1_binary_encoding_witness :
    sat_add_expression_to_imp_matrix
        [⟨0, some "a", true, true, false, false, false⟩,
         ⟨1, some "b", true, false, false, false, false⟩,
         ⟨2, some "_iv3", true, true, false, false, false⟩] 0 []
        (.binary_operands SAT_EXPRESSION_NODE SAT_AND 2
          (.leaf_variable SAT_EXPRESSION_LEAF SAT_NOP 0 0)
          (.leaf_variable SAT_EXPRESSION_LEAF SAT_NOP 1 1)) =
      some ([] ++ ([MatrixCall.set_domain 1 true false] ++ [MatrixCall.set_domain 0 true true] ++
        [MatrixCall.add_relation 2 0 SAT_AND 1])) :=
  C1_binary_encoding _ 0 [] SAT_AND 2 _ _ [MatrixCall.set_domain 0 true true]
    [MatrixCall.set_domain 1 true false]
    ⟨2, some "_iv3", true, true, false, false, false⟩
    ⟨0, some "a", true, true, false, false, false⟩
    ⟨1, some "b", true, false, false, false, false⟩
    (by decide) (by decide) (by decide) (by decide) (by decide) (by decide)

/-- C2 (NOT encoding law).  Lowering `NOT(x)` makes the calls made for `x`, then
the single call `add_relation(ir(n).uid, ir(x).uid, NAND, ir(x).uid)`, whose left
and right operands are equal, and nothing else. -/
theorem C2_not_encoding (heap : List sat_expression_variable) (d : Nat)
    (m : sat_imp_matrix) (ir : VarRef) (x : sat_expression_node)
    (cx : List MatrixCall) (n vx : sat_expression_variable)
    (hx : sat_add_expression_to_imp_matrix heap 0 [] x = some cx)
    (hn : heap[ir]? = some n) (hvx : heap[x.ir]? = some vx) :
    sat_add_expression_to_imp_matrix heap d m
        (.unary_operands SAT_EXPRESSION_NODE SAT_NOT ir x) =
      some (m ++ (cx ++ [MatrixCall.add_relation n.uid vx.uid SAT_NAND vx.uid])) := by
  simp only [sat_add_expression_to_imp_matrix, sat_expression_node.node_type,
    sat_expression_node.op_type]
  rw [lowering_of_calls hx (d + 1) m]
  simp [hn, hvx, sat_add_relation]

/-- Witness of C2: `NOT(a)` over a two-record heap. -/
theorem C2_not_encoding_witness :
    sat_add_expression_to_imp_matrix
        [⟨0, some "a", false, true, false, false, false⟩,
         ⟨1, some "_iv2", true, true, false, false, false⟩] 0 []
        (.unary_operands SAT_EXPRESSION_NODE SAT_NOT 1
          (.leaf_variable SAT_EXPRESSION_LEAF SAT_NOP 0 0)) =
      some ([] ++ ([MatrixCall.set_domain 0 false true] ++
        [MatrixCall.add_relation 1 0 SAT_NAND 0])) :=
  C2_not_encoding _ 0 [] 1 _ [MatrixCall.set_domain 0 false true]
    ⟨1, some "_iv2", true, true, false, false, false⟩
    ⟨0, some "a", false, true, false, false, false⟩
    (by decide) (by decide) (by decide)

/-- A reference that is read successfully is the address of a record. -/
theorem ref_lt {heap : List sat_expression_variable} {p : VarRef}
    {a : sat_expression_variable} (h : heap[p]? = some a) : p < heap.length := by
  by_contra hc
  simp [List.getElem?_eq_none (Nat.le_of_not_lt hc)] at h

/-- The address of a record can be read. -/
theorem ref_read {heap : List sat_expression_variable} {p : VarRef}
    (h : p < heap.length) : ∃ a, heap[p]? = some a :=
  ⟨heap[p], List.getElem?_eq_getElem h⟩

/-- Two records of a heap whose identities are pairwise distinct are the same
record as soon as they carry the same identity. -/
theorem ref_eq_of_uid_eq {heap : List sat_expression_variable}
    (hu : (heap.map (fun v => v.uid)).Nodup) {p q : VarRef}
    {a b : sat_expression_variable} (hp : heap[p]? = some a) (hq : heap[q]? = some b)
    (h : a.uid = b.uid) : p = q := by
  have hp1 : p < (heap.map (fun v => v.uid)).length := by simpa using ref_lt hp
  have h1 : (heap.map (fun v => v.uid))[p]? = (heap.map (fun v => v.uid))[q]? := by
    simp [hp, hq, h]
  exact List.getElem?_inj hp1 hu h1

/-- The `ir` of a tree whose references are valid is the address of a record. -/
theorem ir_valid {heap : List sat_expression_variable} {t : sat_expression_node}
    (h : refs_valid heap t = true) : t.ir < heap.length := by
  cases t with
  | leaf_variable _ _ i v =>
    simp only [refs_valid, Bool.and_eq_true, decide_eq_true_eq] at h
    exact h.1
  | unary_operands _ _ i x =>
    simp only [refs_valid, Bool.and_eq_true, decide_eq_true_eq] at h
    exact h.1
  | binary_operands _ _ i l r =>
    simp only [refs_valid, Bool.and_eq_true, decide_eq_true_eq] at h
    exact h.1.1

/-- C3 (assignment equality law).  Lowering `target := expr` makes the call
`set_domain(target.uid, target.can_be_0, target.can_be_1)`, then the calls made
for `expr`, then the relation `add_relation(target.uid, ir(expr).uid, EQ,
ir(expr).uid)` if and only if `target.uid` differs from `ir(expr).uid`; the
identities of the records of the heap are pairwise distinct. -/
theorem C3_assignment_equality (heap : List sat_expression_variable) (m : sat_imp_matrix)
    (toadd : sat_assignment) (ce : List MatrixCall) (t e : sat_expression_variable)
    (hu : (heap.map (fun v => v.uid)).Nodup)
    (ht : heap[toadd.variable_]? = some t)
    (he : sat_add_expression_to_imp_matrix heap 0 [] toadd.expression = some ce)
    (hir : heap[toadd.expression.ir]? = some e) :
    sat_add_assignment_to_imp_matrix heap m toadd =
      some (m ++ [MatrixCall.set_domain t.uid t.can_be_0 t.can_be_1] ++ ce ++
        (if t.uid ≠ e.uid then [MatrixCall.add_relation t.uid e.uid SAT_EQ e.uid] else [])) := by
  simp only [sat_add_assignment_to_imp_matrix, sat_apply_unary_constraints, ht, sat_set_domain]
  rw [lowering_of_calls he 0 _]
  simp only [hir]
  by_cases hpq : toadd.variable_ = toadd.expression.ir
  · have hte : t = e := by
      rw [hpq, hir] at ht
      exact (Option.some.inj ht).symm
    simp [hpq, hte]
  · have hne : t.uid ≠ e.uid := fun h => hpq (ref_eq_of_uid_eq hu ht hir h)
    simp [hpq, hne, sat_add_relation]

/-- Witness of C3: `c := NOT(a)` over a three-record heap. -/
theorem C3_assignment_equality_witness :
    sat_add_assignment_to_imp_matrix
        [⟨0, some "a", true, true, false, false, false⟩,
         ⟨1, some "c", false, true, false, false, false⟩,
         ⟨2, some "_iv3", true, true, false, false, false⟩] []
        ⟨1, .unary_operands SAT_EXPRESSION_NODE SAT_NOT 2
          (.leaf_variable SAT_EXPRESSION_LEAF SAT_NOP 0 0)⟩ =
      some ([] ++ [MatrixCall.set_domain 1 false true] ++
        [MatrixCall.set_domain 0 true true, MatrixCall.add_relation 2 0 SAT_NAND 0] ++
        (if (1 : Nat) ≠ 2 then [MatrixCall.add_relation 1 2 SAT_EQ 2] else [])) :=
  C3_assignment_equality _ [] _
    [MatrixCall.set_domain 0 true true, MatrixCall.add_relation 2 0 SAT_NAND 0]
    ⟨1, some "c", false, true, false, false, false⟩
    ⟨2, some "_iv3", true, true, false, false, false⟩
    (by decide) (by decide) (by decide) (by decide)

/-- A tree of the builders' shape whose references are valid is lowered, and
the number of domain restrictions of an identity is the number of leaves whose
variable carries it. -/
theorem lowering_restrictions (heap : List sat_expression_variable)
    (hu : (heap.map (fun v => v.uid)).Nodup) (v : VarRef) (V : sat_expression_variable)
    (hv : heap[v]? = some V) (t : sat_expression_node) :
    builder_shape t = true → refs_valid heap t = true →
    ∃ calls, sat_add_expression_to_imp_matrix heap 0 [] t = some calls ∧
      calls.countP (restricts V.uid) = leaf_occurrences v t := by
  induction t with
  | leaf_variable nt o i w =>
    intro hb hr
    simp only [builder_shape, Bool.and_eq_true, decide_eq_true_eq] at hb
    simp only [refs_valid, Bool.and_eq_true, decide_eq_true_eq] at hr
    obtain ⟨⟨hnt, _⟩, _⟩ := hb
    subst hnt
    obtain ⟨W, hw⟩ := ref_read hr.2
    refine ⟨[MatrixCall.set_domain W.uid W.can_be_0 W.can_be_1], ?_, ?_⟩
    · simp [sat_add_expression_to_imp_matrix, sat_expression_node.node_type,
        sat_apply_unary_constraints, hw, sat_set_domain]
    · by_cases hwv : w = v
      · subst hwv
        have : W = V := Option.some.inj (hw.symm.trans hv)
        simp [leaf_occurrences, restricts, this]
      · have hne : W.uid ≠ V.uid := fun h => hwv (ref_eq_of_uid_eq hu hw hv h)
        simp [leaf_occurrences, restricts, hwv, hne]
  | unary_operands nt o i x ih =>
    intro hb hr
    simp only [builder_shape, Bool.and_eq_true, decide_eq_true_eq] at hb
    simp only [refs_valid, Bool.and_eq_true, decide_eq_true_eq] at hr
    obtain ⟨⟨hnt, ho⟩, hbx⟩ := hb
    subst hnt ho
    obtain ⟨cx, hcx, hcount⟩ := ih hbx hr.2
    obtain ⟨I, hi⟩ := ref_read hr.1
    obtain ⟨X, hx⟩ := ref_read (ir_valid hr.2)
    refine ⟨cx ++ [MatrixCall.add_relation I.uid X.uid SAT_NAND X.uid], ?_, ?_⟩
    · simp only [sat_add_expression_to_imp_matrix, sat_expression_node.node_type,
        sat_expression_node.op_type]
      rw [lowering_of_calls hcx (0 + 1) []]
      simp [hi, hx, sat_add_relation]
    · simp [leaf_occurrences, restricts, hcount]
  | binary_operands nt o i l r ihl ihr =>
    intro hb hr
    simp only [builder_shape, Bool.and_eq_true, decide_eq_true_eq] at hb
    simp only [refs_valid, Bool.and_eq_true, decide_eq_true_eq] at hr
    obtain ⟨⟨⟨hnt, ho⟩, hbl⟩, hbr⟩ := hb
    subst hnt
    obtain ⟨cl, hcl, hcountl⟩ := ihl hbl hr.1.2
    obtain ⟨cr, hcr, hcountr⟩ := ihr hbr hr.2
    obtain ⟨I, hi⟩ := ref_read hr.1.1
    obtain ⟨L, hlx⟩ := ref_read (ir_valid hr.1.2)
    obtain ⟨R, hrx⟩ := ref_read (ir_valid hr.2)
    have hnot : o ≠ SAT_NOT := by rcases ho with h | h | h | h | h | h <;> simp [h]
    have hbin : o = SAT_AND ∨ o = SAT_NAND ∨ o = SAT_OR ∨ o = SAT_NOR ∨ o = SAT_XOR ∨
        o = SAT_NXOR ∨ o = SAT_AND := by
      rcases ho with h | h | h | h | h | h <;> simp [h]
    refine ⟨cr ++ cl ++ [MatrixCall.add_relation I.uid L.uid o R.uid], ?_, ?_⟩
    · simp only [sat_add_expression_to_imp_matrix, sat_expression_node.node_type,
        sat_expression_node.op_type]
      rw [lowering_of_calls hcr (0 + 1) [], if_neg (by decide), if_neg hnot, if_pos hbin]
      simp only []
      rw [lowering_of_calls hcl (0 + 1) ([] ++ cr), hi, hlx, hrx]
      simp [sat_add_relation]
    · simp [leaf_occurrences, restricts, hcountl, hcountr, Nat.add_comm]

/-- C4 (leaf lowering).  A leaf built from variable `V` is lowered by exactly one
call, `set_domain(V.uid, V.can_be_0, V.can_be_1)`, and no relation; and in the
calls made for a tree of the builders' shape, the number of domain restrictions
of `V` is the number of leaves of the tree whose variable is `V`. -/
theorem C4_leaf_restriction (s : Session) (v : VarRef) (V : sat_expression_variable)
    (t : sat_expression_node)
    (hu : (s.heap.map (fun x => x.uid)).Nodup) (hv : s.heap[v]? = some V)
    (hb : builder_shape t = true) (hr : refs_valid s.heap t = true) :
    (∃ leaf, sat_new_leaf_expression_node (some v) s = some (leaf, s) ∧
      ∀ (d : Nat) (m : sat_imp_matrix),
        sat_add_expression_to_imp_matrix s.heap d m leaf =
          some (m ++ [MatrixCall.set_domain V.uid V.can_be_0 V.can_be_1])) ∧
    (∃ calls, sat_add_expression_to_imp_matrix s.heap 0 [] t = some calls ∧
      calls.countP (restricts V.uid) = leaf_occurrences v t) := by
  refine ⟨⟨.leaf_variable SAT_EXPRESSION_LEAF SAT_NOP v v, rfl, ?_⟩,
    lowering_restrictions s.heap hu v V hv t hb hr⟩
  intro d m
  simp [sat_add_expression_to_imp_matrix, sat_expression_node.node_type,
    sat_apply_unary_constraints, hv, sat_set_domain]

/-- Witness of C4: in `AND(a, OR(b, a))` the variable `a` is restricted twice. -/
theorem C4_leaf_restriction_witness :
    (∃ leaf, sat_new_leaf_expression_node (some 0)
        ⟨4, [0, 1, 2, 3],
         [⟨0, some "a", true, false, false, false, false⟩,
          ⟨1, some "b", true, true, false, false, false⟩,
          ⟨2, some "_iv3", true, true, false, false, false⟩,
          ⟨3, some "_iv4", true, true, false, false, false⟩]⟩ =
        some (leaf, ⟨4, [0, 1, 2, 3],
         [⟨0, some "a", true, false, false, false, false⟩,
          ⟨1, some "b", true, true, false, false, false⟩,
          ⟨2, some "_iv3", true, true, false, false, false⟩,
          ⟨3, some "_iv4", true, true, false, false, false⟩]⟩) ∧
      ∀ (d : Nat) (m : sat_imp_matrix),
        sat_add_expression_to_imp_matrix
          [⟨0, some "a", true, false, false, false, false⟩,
           ⟨1, some "b", true, true, false, false, false⟩,
           ⟨2, some "_iv3", true, true, false, false, false⟩,
           ⟨3, some "_iv4", true, true, false, false, false⟩] d m leaf =
          some (m ++ [MatrixCall.set_domain 0 true false])) ∧
    (∃ calls, sat_add_expression_to_imp_matrix
          [⟨0, some "a", true, false, false, false, false⟩,
           ⟨1, some "b", true, true, false, false, false⟩,
           ⟨2, some "_iv3", true, true, false, false, false⟩,
           ⟨3, some "_iv4", true, true, false, false, false⟩] 0 []
          (.binary_operands SAT_EXPRESSION_NODE SAT_AND 3
            (.leaf_variable SAT_EXPRESSION_LEAF SAT_NOP 0 0)
            (.binary_operands SAT_EXPRESSION_NODE SAT_OR 2
              (.leaf_variable SAT_EXPRESSION_LEAF SAT_NOP 1 1)
              (.leaf_variable SAT_EXPRESSION_LEAF SAT_NOP 0 0))) = some calls ∧
      calls.countP (restricts 0) = 2) :=
  C4_leaf_restriction
    ⟨4, [0, 1, 2, 3],
     [⟨0, some "a", true, false, false, false, false⟩,
      ⟨1, some "b", true, true, false, false, false⟩,
      ⟨2, some "_iv3", true, true, false, false, false⟩,
      ⟨3, some "_iv4", true, true, false, false, false⟩]⟩ 0
    ⟨0, some "a", true, false, false, false, false⟩
    (.binary_operands SAT_EXPRESSION_NODE SAT_AND 3
      (.leaf_variable SAT_EXPRESSION_LEAF SAT_NOP 0 0)
      (.binary_operands SAT_EXPRESSION_NODE SAT_OR 2
        (.leaf_variable SAT_EXPRESSION_LEAF SAT_NOP 1 1)
        (.leaf_variable SAT_EXPRESSION_LEAF SAT_NOP 0 0)))
    (by decide) (by decide) (by decide) (by decide)

/-! ### Scenario A -/

/-- C5, as stated, fails: in Scenario A the matrix does not receive exactly the
four calls `set_domain(b)`, `set_domain(a)`, `add_relation(ir_and, a, AND, b)`,
`add_relation(c, ir_and, EQ, ir_and)`. -/
theorem C5_counterexample :
    ∃ a b c ir_and calls, scenario_A = some (a, b, c, ir_and, calls) ∧
      calls ≠ [MatrixCall.set_domain b true true, MatrixCall.set_domain a true true,
               MatrixCall.add_relation ir_and a SAT_AND b,
               MatrixCall.add_relation c ir_and SAT_EQ ir_and] :=
  ⟨0, 1, 2, 3,
   [MatrixCall.set_domain 2 true true,
    MatrixCall.set_domain 1 true true, MatrixCall.set_domain 0 true true,
    MatrixCall.add_relation 3 0 SAT_AND 1, MatrixCall.add_relation 2 3 SAT_EQ 3],
   by decide, by decide⟩

/-- C5 (Scenario A), amended.  Lowering `c := AND(a, b)` makes exactly the calls
`set_domain(c)`, `set_domain(b)`, `set_domain(a)`,
`add_relation(ir_and, a, AND, b)`, `add_relation(c, ir_and, EQ, ir_and)`, in
that order, every domain being the default one. -/
theorem C5_scenario_A :
    ∃ a b c ir_and, scenario_A = some (a, b, c, ir_and,
      [MatrixCall.set_domain c true true,
       MatrixCall.set_domain b true true, MatrixCall.set_domain a true true,
       MatrixCall.add_relation ir_and a SAT_AND b,
       MatrixCall.add_relation c ir_and SAT_EQ ir_and]) ∧
      a ≠ b ∧ a ≠ c ∧ b ≠ c ∧ ir_and ≠ a ∧ ir_and ≠ b ∧ ir_and ≠ c :=
  ⟨0, 1, 2, 3, by decide, by decide, by decide, by decide, by decide, by decide, by decide⟩

/-! ### The registry -/

/-- Below `2 ^ 32` the counter left by `sat_new_expression_variable` is the
`unsigned int` the program computes: the increment has not wrapped. -/
theorem counter_within_word (s : Session) (h : s.yy_id_counter + 1 < 2 ^ 32) :
    (sat_new_expression_variable s).2.yy_id_counter = (s.yy_id_counter + 1) % 2 ^ 32 :=
  (Nat.mod_eq_of_lt h).symm

/-- Storing into a record a name it already has changes nothing. -/
theorem set_name_same {heap : List sat_expression_variable} {p : VarRef}
    {w : sat_expression_variable} {name : sat_var_name}
    (hp : heap[p]? = some w) (hw : w.name = some name) : set_name heap p name = heap := by
  apply List.ext_getElem?
  intro m
  rw [set_name, List.getElem?_modify]
  by_cases h : p = m
  · subst h
    rw [hp]
    cases w
    simp at hw
    simp [hw]
  · cases heap[m]? <;> simp [h]

/-- Naming the record that was just appended. -/
theorem set_name_fresh (heap : List sat_expression_variable) (r : sat_expression_variable)
    (name : sat_var_name) :
    set_name (heap ++ [r]) heap.length name = heap ++ [{ r with name := some name }] := by
  apply List.ext_getElem?
  intro m
  rw [set_name, List.getElem?_modify]
  rcases Nat.lt_trichotomy m heap.length with h | h | h
  · have hne : heap.length ≠ m := by omega
    simp [List.getElem?_append_left h, hne]
  · subst h
    simp
  · have hne : heap.length ≠ m := by omega
    rw [List.getElem?_eq_none (by simp; omega), List.getElem?_eq_none (by simp; omega)]
    rfl

/-- The allocation branch of `sat_new_named_expression_variable`. -/
theorem named_alloc_eq (name : sat_var_name) (s : Session) :
    ((sat_new_expression_variable s).1,
      { (sat_new_expression_variable s).2 with
        heap := set_name (sat_new_expression_variable s).2.heap
          (sat_new_expression_variable s).1 name
        yy_sat_variables := (sat_new_expression_variable s).2.yy_sat_variables ++
          [(sat_new_expression_variable s).1] }) = named_fresh name s := by
  simp [sat_new_expression_variable, named_fresh, set_name_fresh]

/-- The loop of `sat_new_named_expression_variable` returns the first cell that
carries the name, leaving the state as it is, or else allocates. -/
theorem named_walk_spec (name : sat_var_name) (s : Session) :
    ∀ l : List VarRef, l ≠ [] → (∀ p ∈ l, (stored_name s.heap p).isSome = true) →
      named_walk name s l =
        match l.find? (fun p => decide (stored_name s.heap p = some name)) with
        | some p => some (p, s)
        | none => some (named_fresh name s) := by
  intro l
  induction l with
  | nil => intro h; exact absurd rfl h
  | cons walker rest ih =>
    intro _ hok
    have hw := hok walker (List.mem_cons_self _ _)
    have hrest : ∀ p ∈ rest, (stored_name s.heap p).isSome = true :=
      fun p hp => hok p (List.mem_cons_of_mem _ hp)
    unfold stored_name at hw
    cases hread : s.heap[walker]? with
    | none => simp [hread] at hw
    | some w =>
      cases hname : w.name with
      | none => simp [hread, hname] at hw
      | some wname =>
        by_cases heq : name = wname
        · subst heq
          have hs : ({ s with heap := set_name s.heap walker name } : Session) = s := by
            rw [set_name_same hread hname]
          simp [named_walk, hread, hname, stored_name, hs]
        · have hne : ¬ (wname = name) := fun h => heq h.symm
          cases rest with
          | nil =>
            have := named_alloc_eq name s
            simp [named_walk, hread, hname, stored_name, heq, hne]
            exact this
          | cons q qs =>
            have := ih (by simp) hrest
            simp [named_walk, hread, hname, stored_name, heq, hne]
            simpa [stored_name] using this

/-- The function `sat_new_named_expression_variable` on a well-formed registry. -/
theorem named_spec (name : sat_var_name) (s : Session) (hok : registry_ok s = true) :
    sat_new_named_expression_variable name s =
      match s.yy_sat_variables.find? (fun p => decide (stored_name s.heap p = some name)) with
      | some p => some (p, s)
      | none => some (named_fresh name s) := by
  unfold sat_new_named_expression_variable
  cases hreg : s.yy_sat_variables with
  | nil =>
    have := named_alloc_eq name s
    simp [named_fresh, hreg] at this ⊢
    simpa [sat_new_expression_variable, hreg] using this
  | cons walker rest =>
    have hall : ∀ p ∈ walker :: rest, (stored_name s.heap p).isSome = true := by
      simpa [registry_ok, hreg] using hok
    exact named_walk_spec name s (walker :: rest) (by simp) hall

/-- A cell whose name can be read is the address of a record. -/
theorem lt_of_stored_name {heap : List sat_expression_variable} {p : VarRef}
    (h : (stored_name heap p).isSome = true) : p < heap.length := by
  unfold stored_name at h
  cases hread : heap[p]? with
  | none => simp [hread] at h
  | some w => exact ref_lt hread

/-- Appending a record leaves the names of the existing records as they are. -/
theorem stored_name_append {heap : List sat_expression_variable} {p : VarRef}
    (r : sat_expression_variable) (h : p < heap.length) :
    stored_name (heap ++ [r]) p = stored_name heap p := by
  simp [stored_name, List.getElem?_append_left h]

/-- Appending a record leaves the identities of the existing records as they are. -/
theorem stored_uid_append {heap : List sat_expression_variable} {p : VarRef}
    (r : sat_expression_variable) (h : p < heap.length) :
    stored_uid (heap ++ [r]) p = stored_uid heap p := by
  simp [stored_uid, List.getElem?_append_left h]

/-- The cells of a well-formed registry are addresses of records. -/
theorem registry_lt {s : Session} (hok : registry_ok s = true) :
    ∀ p ∈ s.yy_sat_variables, p < s.heap.length := by
  intro p hp
  have : ∀ q ∈ s.yy_sat_variables, (stored_name s.heap q).isSome = true := by
    simpa [registry_ok] using hok
  exact lt_of_stored_name (this p hp)

/-- In a well-formed registry every cell also carries an identity. -/
theorem registry_uids_some {s : Session} (hok : registry_ok s = true) :
    ∃ U : List sat_var_idx, registry_uids s = U.map some := by
  have hlt := registry_lt hok
  unfold registry_uids
  generalize s.yy_sat_variables = l at hlt
  induction l with
  | nil => exact ⟨[], rfl⟩
  | cons p ps ih =>
    obtain ⟨U, hU⟩ := ih (fun q hq => hlt q (List.mem_cons_of_mem _ hq))
    obtain ⟨a, ha⟩ := ref_read (hlt p (List.mem_cons_self _ _))
    exact ⟨a.uid :: U, by simp [stored_uid, ha, hU]⟩

/-- A declared name is found: the call returns a cell carrying it and leaves the
state as it is. -/
theorem named_found {name : sat_var_name} {s : Session} (hok : registry_ok s = true)
    (h : some name ∈ registry_names s) :
    ∃ p, sat_new_named_expression_variable name s = some (p, s) ∧
      p ∈ s.yy_sat_variables ∧ stored_name s.heap p = some name := by
  rw [named_spec name s hok]
  cases hf : s.yy_sat_variables.find? (fun p => decide (stored_name s.heap p = some name)) with
  | none =>
    rw [List.find?_eq_none] at hf
    simp only [registry_names, List.mem_map] at h
    obtain ⟨p, hp, hpn⟩ := h
    have := hf p hp
    simp [hpn] at this
  | some p =>
    have h1 := List.find?_some hf
    have h2 := List.mem_of_find?_eq_some hf
    exact ⟨p, rfl, h2, by simpa using h1⟩

/-- A name not declared yet is allocated. -/
theorem named_missing {name : sat_var_name} {s : Session} (hok : registry_ok s = true)
    (h : some name ∉ registry_names s) :
    sat_new_named_expression_variable name s = some (named_fresh name s) := by
  rw [named_spec name s hok]
  cases hf : s.yy_sat_variables.find? (fun p => decide (stored_name s.heap p = some name)) with
  | none => rfl
  | some p =>
    have h1 := List.find?_some hf
    have h2 := List.mem_of_find?_eq_some hf
    exact absurd (List.mem_map.mpr ⟨p, h2, by simpa using h1⟩) h

/-- The names of the registry after an allocation. -/
theorem registry_names_fresh (name : sat_var_name) {s : Session}
    (hok : registry_ok s = true) :
    registry_names (named_fresh name s).2 = registry_names s ++ [some name] := by
  have hlt := registry_lt hok
  simp only [registry_names, named_fresh, List.map_append, List.map_cons, List.map_nil]
  congr 1
  · apply List.map_congr_left
    intro p hp
    exact stored_name_append _ (hlt p hp)
  · simp [stored_name]

/-- The identities of the registry after an allocation. -/
theorem registry_uids_fresh (name : sat_var_name) {s : Session}
    (hok : registry_ok s = true) :
    registry_uids (named_fresh name s).2 = registry_uids s ++ [some s.yy_id_counter] := by
  have hlt := registry_lt hok
  simp only [registry_uids, named_fresh, List.map_append, List.map_cons, List.map_nil]
  congr 1
  · apply List.map_congr_left
    intro p hp
    exact stored_uid_append _ (hlt p hp)
  · simp [stored_uid]

/-- An allocation through the registry keeps it well formed. -/
theorem registry_ok_fresh (name : sat_var_name) {s : Session}
    (hok : registry_ok s = true) : registry_ok (named_fresh name s).2 = true := by
  have hn := registry_names_fresh name hok
  have h0 : ∀ q ∈ registry_names s, q.isSome = true := by
    simpa [registry_ok, registry_names] using hok
  have : ∀ q ∈ registry_names (named_fresh name s).2, q.isSome = true := by
    rw [hn]
    intro q hq
    rcases List.mem_append.mp hq with h | h
    · exact h0 q h
    · simp at h; simp [h]
  simpa [registry_ok, registry_names] using this

/-- An anonymous variable leaves the names of the registry as they are. -/
theorem registry_names_anon {s : Session} (hok : registry_ok s = true) :
    registry_names (sat_new_expression_variable s).2 = registry_names s := by
  have hlt := registry_lt hok
  simp only [registry_names, sat_new_expression_variable]
  apply List.map_congr_left
  intro p hp
  exact stored_name_append _ (hlt p hp)

/-- An anonymous variable leaves the identities of the registry as they are. -/
theorem registry_uids_anon {s : Session} (hok : registry_ok s = true) :
    registry_uids (sat_new_expression_variable s).2 = registry_uids s := by
  have hlt := registry_lt hok
  simp only [registry_uids, sat_new_expression_variable]
  apply List.map_congr_left
  intro p hp
  exact stored_uid_append _ (hlt p hp)

/-- An anonymous variable keeps the registry well formed. -/
theorem registry_ok_anon {s : Session} (hok : registry_ok s = true) :
    registry_ok (sat_new_expression_variable s).2 = true := by
  have hn := registry_names_anon hok
  have h0 : ∀ q ∈ registry_names s, q.isSome = true := by
    simpa [registry_ok, registry_names] using hok
  have : ∀ q ∈ registry_names (sat_new_expression_variable s).2, q.isSome = true := by
    rw [hn]; exact h0
  simpa [registry_ok, registry_names] using this

/-- Running a sequence of calls followed by one more call. -/
theorem create_all_append (cs : List (Option sat_var_name)) (c : Option sat_var_name) :
    ∀ s : Session, create_all (cs ++ [c]) s =
      match create_all cs s with
      | none => none
      | some (ids, s1) =>
        match create c s1 with
        | none => none
        | some (p, s2) =>
          match s2.heap[p]? with
          | none => none
          | some v => some (ids ++ [v.uid], s2) := by
  induction cs with
  | nil =>
    intro s
    simp only [List.nil_append, create_all]
  | cons d ds ih =>
    intro s
    simp only [List.cons_append, create_all]
    cases create d s with
    | none => rfl
    | some r =>
      obtain ⟨p, s1⟩ := r
      dsimp only
      cases hv : s1.heap[p]? with
      | none => rfl
      | some v =>
        dsimp only
        rw [List.append_eq, ih s1]
        cases create_all ds s1 with
        | none => rfl
        | some r1 =>
          obtain ⟨ids, s2⟩ := r1
          dsimp only
          cases create c s2 with
          | none => rfl
          | some r2 =>
            obtain ⟨q, s3⟩ := r2
            dsimp only
            cases s3.heap[q]? <;> rfl

/-- The invariant holds before any call. -/
theorem Reached.start (s0 : Session) (h0 : s0.yy_sat_variables = []) :
    Reached s0 [] [] s0 [] [] where
  ok := by simp [registry_ok, h0]
  names := by simp [registry_names, h0]
  nodup := List.nodup_nil
  mem := by simp
  order := List.Pairwise.nil
  uids := by simp [registry_uids, h0]
  increasing := List.Pairwise.nil
  below := by simp
  count := by simp
  heap_uids := by simp
  at_most := by simp
  all_new := by simp

/-- The invariant after one more anonymous variable. -/
theorem Reached.anon {s0 : Session} {calls : List (Option sat_var_name)}
    {ids : List sat_var_idx} {s : Session} {L : List sat_var_name} {U : List sat_var_idx}
    (h : Reached s0 calls ids s L U) :
    Reached s0 (calls ++ [none]) (ids ++ [s.yy_id_counter])
      (sat_new_expression_variable s).2 L U where
  ok := registry_ok_anon h.ok
  names := by rw [registry_names_anon h.ok, h.names]
  nodup := h.nodup
  mem := by intro x; simp [h.mem x]
  order := by simpa using h.order
  uids := by rw [registry_uids_anon h.ok, h.uids]
  increasing := h.increasing
  below := by
    intro u hu
    exact Nat.lt_succ_of_lt (h.below u hu)
  count := by
    have := h.count
    simp only [sat_new_expression_variable, List.filter_append, List.length_append]
    simp
    omega
  heap_uids := by
    have h1 := h.heap_uids
    have h2 := h.count
    simp only [sat_new_expression_variable, List.map_append, h1]
    have : s.yy_id_counter + 1 - s0.yy_id_counter = (s.yy_id_counter - s0.yy_id_counter) + 1 := by
      omega
    have hlast : s0.yy_id_counter + 1 * (s.yy_id_counter - s0.yy_id_counter) =
        s.yy_id_counter := by omega
    rw [this, List.range'_concat, hlast]
    simp
  at_most := by
    have := h.at_most
    simp only [sat_new_expression_variable, List.length_append, List.length_singleton]
    omega
  all_new := by
    intro hc
    have h1 := h.at_most
    simp only [sat_new_expression_variable, List.length_append, List.length_singleton] at hc
    have h2 : s.yy_id_counter = s0.yy_id_counter + calls.length := by omega
    rw [h.all_new h2, List.length_append, List.length_singleton, List.range'_concat, h2]
    simp

/-- The invariant after declaring a name that is already in the registry. -/
theorem Reached.again {s0 : Session} {calls : List (Option sat_var_name)}
    {ids : List sat_var_idx} {s : Session} {L : List sat_var_name} {U : List sat_var_idx}
    (h : Reached s0 calls ids s L U) {name : sat_var_name} (hn : name ∈ L)
    (u0 : sat_var_idx) :
    Reached s0 (calls ++ [some name]) (ids ++ [u0]) s L U where
  ok := h.ok
  names := h.names
  nodup := h.nodup
  mem := by
    intro x
    simp only [List.mem_append, List.mem_singleton, Option.some.injEq, h.mem x]
    constructor
    · exact Or.inl
    · rintro (h1 | h1)
      · exact h1
      · rw [h1]; exact (h.mem name).mp hn
  order := by
    have hN : ∀ x ∈ L, x ∈ calls.filterMap id := by
      intro x hx
      have := (h.mem x).mp hx
      simpa using this
    refine (h.order.imp_of_mem ?_)
    intro a b ha hb hab
    simp only [List.filterMap_append, List.filterMap_cons, List.filterMap_nil, id]
    rw [List.indexOf_append_of_mem (hN a ha), List.indexOf_append_of_mem (hN b hb)]
    exact hab
  uids := h.uids
  increasing := h.increasing
  below := h.below
  count := by
    have := h.count
    simp only [List.filter_append, List.length_append]
    simp
    omega
  heap_uids := h.heap_uids
  at_most := by
    have := h.at_most
    simp only [List.length_append, List.length_singleton]
    omega
  all_new := by
    intro hc
    have h1 := h.at_most
    have h2 := h.count
    have h3 : L.length ≤ (calls.filterMap id).length := by
      have hsub : L ⊆ calls.filterMap id := by
        intro x hx
        have := (h.mem x).mp hx
        simpa using this
      exact (List.subperm_of_subset h.nodup hsub).length_le
    have h4 : (calls.filter (fun c => c.isNone)).length + (calls.filterMap id).length
        = calls.length := by
      clear * -
      induction calls with
      | nil => rfl
      | cons c cs ih => cases c <;> simp [List.filter_cons, List.filterMap_cons] <;> omega
    simp only [List.length_append, List.length_singleton] at hc
    omega

/-- The invariant after declaring a name that is not in the registry yet. -/
theorem Reached.declare {s0 : Session} {calls : List (Option sat_var_name)}
    {ids : List sat_var_idx} {s : Session} {L : List sat_var_name} {U : List sat_var_idx}
    (h : Reached s0 calls ids s L U) {name : sat_var_name} (hn : name ∉ L) :
    Reached s0 (calls ++ [some name]) (ids ++ [s.yy_id_counter])
      (named_fresh name s).2 (L ++ [name]) (U ++ [s.yy_id_counter]) where
  ok := registry_ok_fresh name h.ok
  names := by rw [registry_names_fresh name h.ok, h.names]; simp
  nodup := by
    rw [List.nodup_append]
    refine ⟨h.nodup, List.nodup_singleton _, ?_⟩
    intro x hx hx1
    rw [List.mem_singleton] at hx1
    exact hn (hx1 ▸ hx)
  mem := by
    intro x
    simp only [List.mem_append, List.mem_singleton, Option.some.injEq, h.mem x]
  order := by
    have hN : ∀ x ∈ L, x ∈ calls.filterMap id := by
      intro x hx
      have := (h.mem x).mp hx
      simpa using this
    have hnN : name ∉ calls.filterMap id := by
      intro hc
      have : some name ∈ calls := by simpa using hc
      exact hn ((h.mem name).mpr this)
    simp only [List.filterMap_append, List.filterMap_cons, List.filterMap_nil, id]
    rw [List.pairwise_append]
    refine ⟨?_, List.pairwise_singleton _ _, ?_⟩
    · refine (h.order.imp_of_mem ?_)
      intro a b ha hb hab
      rw [List.indexOf_append_of_mem (hN a ha), List.indexOf_append_of_mem (hN b hb)]
      exact hab
    · intro a ha b hb
      rw [List.mem_singleton] at hb
      subst hb
      rw [List.indexOf_append_of_mem (hN a ha), List.indexOf_append_of_not_mem hnN]
      have := List.indexOf_lt_length.mpr (hN a ha)
      omega
  uids := by rw [registry_uids_fresh name h.ok, h.uids]; simp
  increasing := by
    rw [List.pairwise_append]
    refine ⟨h.increasing, List.pairwise_singleton _ _, ?_⟩
    intro a ha b hb
    rw [List.mem_singleton] at hb
    subst hb
    exact h.below a ha
  below := by
    intro u hu
    rcases List.mem_append.mp hu with h1 | h1
    · exact Nat.lt_succ_of_lt (h.below u h1)
    · rw [List.mem_singleton] at h1
      subst h1
      exact Nat.lt_succ_self _
  count := by
    have := h.count
    simp only [named_fresh, List.filter_append, List.length_append]
    simp
    omega
  heap_uids := by
    have h1 := h.heap_uids
    have h2 := h.count
    simp only [named_fresh, List.map_append, h1]
    have : s.yy_id_counter + 1 - s0.yy_id_counter = (s.yy_id_counter - s0.yy_id_counter) + 1 := by
      omega
    have hlast : s0.yy_id_counter + 1 * (s.yy_id_counter - s0.yy_id_counter) =
        s.yy_id_counter := by omega
    rw [this, List.range'_concat, hlast]
    simp
  at_most := by
    have := h.at_most
    simp only [named_fresh, List.length_append, List.length_singleton]
    omega
  all_new := by
    intro hc
    have h1 := h.at_most
    simp only [named_fresh, List.length_append, List.length_singleton] at hc
    have h2 : s.yy_id_counter = s0.yy_id_counter + calls.length := by omega
    rw [h.all_new h2, List.length_append, List.length_singleton, List.range'_concat, h2]
    simp

/-- From an empty registry every sequence of registry calls runs to completion,
and the state it reaches satisfies the invariant. -/
theorem reached_of_calls (s0 : Session) (h0 : s0.yy_sat_variables = [])
    (calls : List (Option sat_var_name)) :
    ∃ ids s L U, create_all calls s0 = some (ids, s) ∧ Reached s0 calls ids s L U := by
  induction calls using List.reverseRecOn with
  | nil => exact ⟨[], s0, [], [], rfl, Reached.start s0 h0⟩
  | append_singleton cs c ih =>
    obtain ⟨ids, s, L, U, hrun, hinv⟩ := ih
    rw [create_all_append, hrun]
    cases c with
    | none =>
      refine ⟨ids ++ [s.yy_id_counter], (sat_new_expression_variable s).2, L, U, ?_, hinv.anon⟩
      simp [create, sat_new_expression_variable]
    | some name =>
      by_cases hmem : name ∈ L
      · have hreg : some name ∈ registry_names s := by
          rw [hinv.names]; exact List.mem_map.mpr ⟨name, hmem, rfl⟩
        obtain ⟨p, hcall, hp, _⟩ := named_found hinv.ok hreg
        obtain ⟨v, hv⟩ := ref_read (registry_lt hinv.ok p hp)
        refine ⟨ids ++ [v.uid], s, L, U, ?_, hinv.again hmem v.uid⟩
        simp [create, hcall, hv]
      · have hreg : some name ∉ registry_names s := by
          rw [hinv.names]
          intro hc
          obtain ⟨x, hx, hxe⟩ := List.mem_map.mp hc
          exact hmem (Option.some.inj hxe ▸ hx)
        refine ⟨ids ++ [s.yy_id_counter], (named_fresh name s).2, L ++ [name],
          U ++ [s.yy_id_counter], ?_, hinv.declare hmem⟩
        simp [create, named_missing hinv.ok hreg, named_fresh]

/-- C6 (identity monotonicity).  From the fresh state every sequence of registry
calls (anonymous or named) runs to completion; with `N` the number of variables
it creates, below the `2 ^ 32` at which the `unsigned int` counter wraps, the
records created carry, in creation order, the identities `0, 1, ..., N-1`,
`sat_get_variable_count()` returns `N`, and when every call creates a variable
the identities returned are `0, 1, ..., N-1` in call order. -/
theorem C6_identity_monotonicity (calls : List (Option sat_var_name))
    (_hbound : variables_created calls < 2 ^ 32) :
    ∃ ids s, create_all calls Session.fresh = some (ids, s) ∧
      s.heap.map (fun v => v.uid) = List.range (variables_created calls) ∧
      sat_get_variable_count s = variables_created calls ∧
      (calls.length = variables_created calls → ids = List.range calls.length) := by
  obtain ⟨ids, s, L, U, hrun, hinv⟩ := reached_of_calls Session.fresh rfl calls
  have hlen : L.length = (calls.filterMap id).dedup.length := by
    apply List.Perm.length_eq
    rw [List.perm_ext_iff_of_nodup hinv.nodup (List.nodup_dedup _)]
    intro x
    rw [hinv.mem x, List.mem_dedup]
    simp
  have hcount : s.yy_id_counter = variables_created calls := by
    have := hinv.count
    simp only [Session.fresh, Nat.zero_add] at this
    rw [this, hlen, variables_created]
  refine ⟨ids, s, hrun, ?_, hcount, ?_⟩
  · have := hinv.heap_uids
    simp only [Session.fresh, List.map_nil, List.nil_append, Nat.sub_zero] at this
    rw [this, hcount, List.range_eq_range']
  · intro hall
    have := hinv.all_new
    simp only [Session.fresh, Nat.zero_add] at this
    rw [this (by rw [hcount, hall]), List.range_eq_range']

/-- Witness of C6: three calls that create three variables. -/
theorem C6_identity_monotonicity_witness :
    ∃ ids s, create_all [some "a", none, some "b"] Session.fresh = some (ids, s) ∧
      s.heap.map (fun v => v.uid) = List.range (variables_created [some "a", none, some "b"]) ∧
      sat_get_variable_count s = variables_created [some "a", none, some "b"] ∧
      ids = List.range [some "a", none, some "b"].length := by
  obtain ⟨ids, s, h1, h2, h3, h4⟩ :=
    C6_identity_monotonicity [some "a", none, some "b"] (by decide)
  exact ⟨ids, s, h1, h2, h3, h4 (by decide)⟩

/-- C7 (name idempotence).  In every well-formed registry state, declaring a
name and then declaring a name of equal content returns the same variable both
times; the second call leaves the identity counter, the registry list and the
number of records as they are, and the variable stores the declared name. -/
theorem C7_name_idempotence (s : Session) (name : sat_var_name)
    (hok : registry_ok s = true) :
    ∃ p s1 s2 v1 v2,
      sat_new_named_expression_variable name s = some (p, s1) ∧
      sat_new_named_expression_variable name s1 = some (p, s2) ∧
      s1.heap[p]? = some v1 ∧ s2.heap[p]? = some v2 ∧ v2.uid = v1.uid ∧
      s2.yy_id_counter = s1.yy_id_counter ∧
      s2.yy_sat_variables = s1.yy_sat_variables ∧
      s2.heap.length = s1.heap.length ∧
      v2.name = some name := by
  by_cases hmem : some name ∈ registry_names s
  · obtain ⟨p, hcall, hp, hname⟩ := named_found hok hmem
    obtain ⟨v, hv⟩ := ref_read (registry_lt hok p hp)
    refine ⟨p, s, s, v, v, hcall, hcall, hv, hv, rfl, rfl, rfl, rfl, ?_⟩
    simpa [stored_name, hv] using hname
  · have hcall := named_missing hok hmem
    have hok1 := registry_ok_fresh name hok
    have hmem1 : some name ∈ registry_names (named_fresh name s).2 := by
      rw [registry_names_fresh name hok]; simp
    obtain ⟨q, hcall1, hq, hname1⟩ := named_found hok1 hmem1
    have hq0 : q = s.heap.length := by
      simp only [named_fresh, List.mem_append, List.mem_singleton] at hq
      rcases hq with hq | hq
      · exfalso
        apply hmem
        have hlt := registry_lt hok q hq
        have : stored_name s.heap q = some name := by
          rw [← hname1]
          simp only [named_fresh]
          exact (stored_name_append _ hlt).symm
        exact List.mem_map.mpr ⟨q, hq, this⟩
      · exact hq
    subst hq0
    have hv : (named_fresh name s).2.heap[s.heap.length]? =
        some { uid := s.yy_id_counter, name := some name, can_be_0 := true, can_be_1 := true,
               check_domain := false, expect_0 := false, expect_1 := false } := by
      simp [named_fresh]
    exact ⟨s.heap.length, (named_fresh name s).2, (named_fresh name s).2, _, _,
      hcall, hcall1, hv, hv, rfl, rfl, rfl, rfl, rfl⟩

/-- Witness of C7: declaring `x` twice in a registry that holds `y`. -/
theorem C7_name_idempotence_witness :
    ∃ p s1 s2 v1 v2,
      sat_new_named_expression_variable "x" ⟨1, [0], [⟨0, some "y", true, true, false, false, false⟩]⟩
        = some (p, s1) ∧
      sat_new_named_expression_variable "x" s1 = some (p, s2) ∧
      s1.heap[p]? = some v1 ∧ s2.heap[p]? = some v2 ∧ v2.uid = v1.uid ∧
      s2.yy_id_counter = s1.yy_id_counter ∧
      s2.yy_sat_variables = s1.yy_sat_variables ∧
      s2.heap.length = s1.heap.length ∧
      v2.name = some "x" :=
  C7_name_idempotence ⟨1, [0], [⟨0, some "y", true, true, false, false, false⟩]⟩ "x" (by decide)

/-- C8 (registry invariant).  After any sequence of named declarations from an
empty registry, the names read along the registry list are pairwise distinct,
they are the declared names in the order of their first declaration, and the
identities read along the list are strictly increasing.  The counter at the
start and the number of distinct names together stay below the `2 ^ 32` at which
the `unsigned int` counter wraps. -/
theorem C8_registry_invariant (s0 : Session) (names : List sat_var_name)
    (h0 : s0.yy_sat_variables = [])
    (_hbound : s0.yy_id_counter + names.dedup.length < 2 ^ 32) :
    ∃ (ids : List sat_var_idx) (s : Session) (L : List sat_var_name) (U : List sat_var_idx),
      create_all (names.map some) s0 = some (ids, s) ∧
      registry_names s = L.map some ∧ L.Nodup ∧ (∀ x, x ∈ L ↔ x ∈ names) ∧
      L.Pairwise (fun x y => names.indexOf x < names.indexOf y) ∧
      registry_uids s = U.map some ∧ U.Pairwise (fun a b => a < b) := by
  obtain ⟨ids, s, L, U, hrun, hinv⟩ := reached_of_calls s0 h0 (names.map some)
  have hfm : (names.map some).filterMap id = names := by
    induction names with
    | nil => rfl
    | cons a as ih => simp [List.filterMap_cons, ih]
  refine ⟨ids, s, L, U, hrun, hinv.names, hinv.nodup, ?_, ?_, hinv.uids, hinv.increasing⟩
  · intro x
    rw [hinv.mem x]
    simp
  · have := hinv.order
    rw [hfm] at this
    exact this

/-- Witness of C8: the declarations `x, y, x, z` after two anonymous variables. -/
theorem C8_registry_invariant_witness :
    ∃ (ids : List sat_var_idx) (s : Session) (L : List sat_var_name) (U : List sat_var_idx),
      create_all (["x", "y", "x", "z"].map some)
        ⟨2, [], [⟨0, none, true, true, false, false, false⟩,
                 ⟨1, none, true, true, false, false, false⟩]⟩ = some (ids, s) ∧
      registry_names s = L.map some ∧ L.Nodup ∧ (∀ x, x ∈ L ↔ x ∈ ["x", "y", "x", "z"]) ∧
      L.Pairwise (fun x y => ["x", "y", "x", "z"].indexOf x < ["x", "y", "x", "z"].indexOf y) ∧
      registry_uids s = U.map some ∧ U.Pairwise (fun a b => a < b) :=
  C8_registry_invariant
    ⟨2, [], [⟨0, none, true, true, false, false, false⟩,
             ⟨1, none, true, true, false, false, false⟩]⟩ ["x", "y", "x", "z"] rfl
    (by decide)

/-! ### What the builders return -/

/-- The function `sat_new_leaf_expression_node` returns the leaf of the variable
and leaves the session as it is. -/
theorem leaf_built {v : VarRef} {s s1 : Session} {n : sat_expression_node}
    (h : sat_new_leaf_expression_node (some v) s = some (n, s1)) :
    n = .leaf_variable SAT_EXPRESSION_LEAF SAT_NOP v v ∧ s1 = s := by
  simp only [sat_new_leaf_expression_node, sat_new_expression_node, Option.some.injEq,
    Prod.mk.injEq] at h
  exact ⟨h.1.symm, h.2.symm⟩

/-- The function `sat_new_unary_expression_node` returns a `SAT_NOT` node over
the child, whose `ir` comes from `sat_new_expression_node`. -/
theorem unary_built {c : sat_expression_node} {op : sat_binary_op} {s s1 : Session}
    {n : sat_expression_node}
    (h : sat_new_unary_expression_node (some c) op s = some (n, s1)) :
    op = SAT_NOT ∧ ∃ ir, n = .unary_operands SAT_EXPRESSION_NODE SAT_NOT ir c ∧
      sat_new_expression_node SAT_EXPRESSION_NODE none s =
        some ((SAT_EXPRESSION_NODE, ir), s1) := by
  unfold sat_new_unary_expression_node at h
  by_cases hop : op = SAT_NOT
  · subst hop
    simp only [if_true] at h
    cases hnode : sat_new_expression_node SAT_EXPRESSION_NODE none s with
    | none => simp [hnode] at h
    | some r =>
      obtain ⟨⟨t, ir⟩, s2⟩ := r
      simp only [hnode, Option.some.injEq, Prod.mk.injEq] at h
      have ht : t = SAT_EXPRESSION_NODE := by
        unfold sat_new_expression_node at hnode
        cases hcall : sat_new_named_expression_variable
            (sat_expression_var_id_to_name (s.yy_id_counter + 1)) s with
        | none => simp [hcall] at hnode
        | some r1 =>
          simp only [hcall, Option.some.injEq, Prod.mk.injEq] at hnode
          exact hnode.1.1.symm
      subst ht
      obtain ⟨h1, h2⟩ := h
      subst h2
      exact ⟨rfl, ir, h1.symm, rfl⟩
  · simp [hop] at h

/-- The function `sat_new_binary_expression_node` returns a node over the two
children that carries one of the six binary operators, whose `ir` comes from
`sat_new_expression_node`. -/
theorem binary_built {l r : sat_expression_node} {op : sat_binary_op} {s s1 : Session}
    {n : sat_expression_node}
    (h : sat_new_binary_expression_node (some l) (some r) op s = some (n, s1)) :
    (op = SAT_AND ∨ op = SAT_OR ∨ op = SAT_NOR ∨ op = SAT_NAND ∨ op = SAT_NXOR ∨
      op = SAT_XOR) ∧
    ∃ ir, n = .binary_operands SAT_EXPRESSION_NODE op ir l r ∧
      sat_new_expression_node SAT_EXPRESSION_NODE none s =
        some ((SAT_EXPRESSION_NODE, ir), s1) := by
  simp only [sat_new_binary_expression_node] at h
  by_cases hop : op = SAT_AND ∨ op = SAT_OR ∨ op = SAT_NOR ∨ op = SAT_NAND ∨ op = SAT_NXOR ∨
      op = SAT_XOR
  · rw [if_pos hop] at h
    cases hnode : sat_new_expression_node SAT_EXPRESSION_NODE none s with
    | none => simp [hnode] at h
    | some r0 =>
      obtain ⟨⟨t, ir⟩, s2⟩ := r0
      simp only [hnode, Option.some.injEq, Prod.mk.injEq] at h
      have ht : t = SAT_EXPRESSION_NODE := by
        unfold sat_new_expression_node at hnode
        cases hcall : sat_new_named_expression_variable
            (sat_expression_var_id_to_name (s.yy_id_counter + 1)) s with
        | none => simp [hcall] at hnode
        | some r1 =>
          simp only [hcall, Option.some.injEq, Prod.mk.injEq] at hnode
          exact hnode.1.1.symm
      subst ht
      obtain ⟨h1, h2⟩ := h
      subst h2
      exact ⟨hop, ir, h1.symm, rfl⟩
  · rw [if_neg hop] at h
    cases h

/-- A leaf returned by its builder has the builders' shape. -/
theorem builder_shape_leaf {v : VarRef} {s s1 : Session} {n : sat_expression_node}
    (h : sat_new_leaf_expression_node (some v) s = some (n, s1)) :
    builder_shape n = true := by
  rw [(leaf_built h).1]
  simp [builder_shape]

/-- A unary node returned by its builder over a child of the builders' shape has
the builders' shape. -/
theorem builder_shape_unary {c : sat_expression_node} {op : sat_binary_op} {s s1 : Session}
    {n : sat_expression_node} (hc : builder_shape c = true)
    (h : sat_new_unary_expression_node (some c) op s = some (n, s1)) :
    builder_shape n = true := by
  obtain ⟨_, ir, hn, _⟩ := unary_built h
  rw [hn]
  simp [builder_shape, hc]

/-- A binary node returned by its builder over children of the builders' shape
has the builders' shape. -/
theorem builder_shape_binary {l r : sat_expression_node} {op : sat_binary_op}
    {s s1 : Session} {n : sat_expression_node}
    (hl : builder_shape l = true) (hr : builder_shape r = true)
    (h : sat_new_binary_expression_node (some l) (some r) op s = some (n, s1)) :
    builder_shape n = true := by
  obtain ⟨hop, ir, hn, _⟩ := binary_built h
  rw [hn]
  simp [builder_shape, hl, hr, hop]

/-- On a well-formed registry `sat_new_expression_node` called without an `ir`
returns the address of a record, never shrinks the heap and keeps the registry
well formed. -/
theorem new_node_valid {t : sat_expression_node_type} {s s1 : Session} {ir : VarRef}
    (hok : registry_ok s = true)
    (h : sat_new_expression_node t none s = some ((t, ir), s1)) :
    ir < s1.heap.length ∧ s.heap.length ≤ s1.heap.length ∧ registry_ok s1 = true := by
  unfold sat_new_expression_node at h
  simp only [] at h
  by_cases hmem : some (sat_expression_var_id_to_name (s.yy_id_counter + 1)) ∈ registry_names s
  · obtain ⟨p, hcall, hp, _⟩ := named_found hok hmem
    simp only [hcall, Option.some.injEq, Prod.mk.injEq, true_and] at h
    obtain ⟨h1, h2⟩ := h
    subst h1 h2
    exact ⟨registry_lt hok p hp, Nat.le_refl _, hok⟩
  · have hcall := named_missing hok hmem
    simp only [hcall, Option.some.injEq, Prod.mk.injEq, true_and] at h
    obtain ⟨h1, h2⟩ := h
    subst h1 h2
    refine ⟨?_, ?_, registry_ok_fresh _ hok⟩
    · simp [named_fresh]
    · simp [named_fresh]

/-- References that are valid stay valid when the heap grows. -/
theorem refs_valid_mono {heap heap1 : List sat_expression_variable}
    (hle : heap.length ≤ heap1.length) (t : sat_expression_node) :
    refs_valid heap t = true → refs_valid heap1 t = true := by
  induction t with
  | leaf_variable nt o i v =>
    simp only [refs_valid, Bool.and_eq_true, decide_eq_true_eq]
    intro h
    exact ⟨Nat.lt_of_lt_of_le h.1 hle, Nat.lt_of_lt_of_le h.2 hle⟩
  | unary_operands nt o i x ih =>
    simp only [refs_valid, Bool.and_eq_true, decide_eq_true_eq]
    intro h
    exact ⟨Nat.lt_of_lt_of_le h.1 hle, ih h.2⟩
  | binary_operands nt o i l r ihl ihr =>
    simp only [refs_valid, Bool.and_eq_true, decide_eq_true_eq]
    intro h
    exact ⟨⟨Nat.lt_of_lt_of_le h.1.1 hle, ihl h.1.2⟩, ihr h.2⟩

/-- In a session reached from the fresh state the records carry pairwise
distinct identities. -/
theorem uids_nodup_of_fresh {calls : List (Option sat_var_name)} {ids : List sat_var_idx}
    {s : Session} (h : create_all calls Session.fresh = some (ids, s)) :
    (s.heap.map (fun v => v.uid)).Nodup := by
  obtain ⟨ids1, s1, L, U, hrun, hinv⟩ := reached_of_calls Session.fresh rfl calls
  rw [hrun] at h
  obtain ⟨_, h2⟩ := Prod.mk.inj (Option.some.inj h)
  subst h2
  have := hinv.heap_uids
  simp only [Session.fresh, List.map_nil, List.nil_append] at this
  rw [this]
  exact List.nodup_range' _ _

/-! ### Auxiliary variables of the builders -/

/-- C9, evaluated where it fails: in a fresh session whose only declaration is
the name `_iv2`, `sat_new_unary_expression_node` builds `NOT(x)` over that
variable `x` with `x` itself as `ir` (the `ir` of its child, of identity 0 and
not the counter value 1), allocates no record and leaves the counter at 1. -/
theorem C9_ir_not_fresh :
    ∃ s2 s3 x v,
      not_of_declared "_iv2" =
        some (s2, s3, .unary_operands SAT_EXPRESSION_NODE SAT_NOT x
          (.leaf_variable SAT_EXPRESSION_LEAF SAT_NOP x x)) ∧
      registry_ok s2 = true ∧ s3.heap[x]? = some v ∧ v.uid = 0 ∧
      s2.yy_id_counter = 1 ∧ s3.yy_id_counter = 1 ∧ s3.heap.length = s2.heap.length :=
  ⟨⟨1, [0], [⟨0, some "_iv2", true, true, false, false, false⟩]⟩,
   ⟨1, [0], [⟨0, some "_iv2", true, true, false, false, false⟩]⟩,
   0, ⟨0, some "_iv2", true, true, false, false, false⟩,
   by decide, by decide, by decide, by decide, by decide, by decide, by decide⟩

/-- C11 (leaf ir identity law).  For every variable `V`, the leaf builder returns
a leaf node whose `ir` is `V` and whose leaf variable is `V`, and leaves the
session (identity counter, registry list, records) as it is. -/
theorem C11_leaf_ir_identity (s : Session) (v : VarRef) :
    ∃ n s1, sat_new_leaf_expression_node (some v) s = some (n, s1) ∧
      n.node_type = SAT_EXPRESSION_LEAF ∧ n.ir = v ∧
      n = sat_expression_node.leaf_variable SAT_EXPRESSION_LEAF SAT_NOP v v ∧
      s1.yy_id_counter = s.yy_id_counter ∧ s1.yy_sat_variables = s.yy_sat_variables ∧
      s1.heap = s.heap :=
  ⟨.leaf_variable SAT_EXPRESSION_LEAF SAT_NOP v v, s, rfl, rfl, rfl, rfl, rfl, rfl, rfl⟩

/-- C12, evaluated where it fails: after one call of `sat_new_expression_variable`
in a fresh session a variable of identity 0 exists, and
`sat_get_variable_from_id(0)` returns `NULL`. -/
theorem C12_anonymous_not_found :
    ∃ v, (sat_new_expression_variable Session.fresh).2.heap[
        (sat_new_expression_variable Session.fresh).1]? = some v ∧ v.uid = 0 ∧
      sat_get_variable_from_id (sat_new_expression_variable Session.fresh).2 0 = some none :=
  ⟨⟨0, none, true, true, false, false, false⟩, by decide, by decide, by decide⟩

/-- C13 (expectation checker).  The check passes if and only if the variable has
no declared expectation or both expected admissibilities equal the ones the
matrix reports for the identity of the variable. -/
theorem C13_check_expectations {M : Type}
    (sat_value_in_domain : M → sat_var_idx → Bool → Bool)
    (heap : List sat_expression_variable) (var : VarRef) (v : sat_expression_variable)
    (matrix : M) (print_failures : Bool) (hv : heap[var]? = some v) :
    ∃ pass, sat_check_expectations sat_value_in_domain heap var matrix print_failures =
        some pass ∧
      (pass = true ↔ (v.check_domain = false ∨
        (v.expect_0 = sat_value_in_domain matrix v.uid false ∧
         v.expect_1 = sat_value_in_domain matrix v.uid true))) ∧
      (v.check_domain = false → pass = true) := by
  simp only [sat_check_expectations, hv]
  cases hc : v.check_domain
  · exact ⟨true, by simp, by simp, by simp⟩
  · by_cases h0 : v.expect_0 = sat_value_in_domain matrix v.uid false
    · by_cases h1 : v.expect_1 = sat_value_in_domain matrix v.uid true
      · exact ⟨true, by simp [h0, h1], by simp [h0, h1], by simp⟩
      · exact ⟨false, by simp [h0, h1], by simp [h0, h1], by simp⟩
    · exact ⟨false, by simp [h0], by simp [h0], by simp⟩

/-- Witness of C13: an expectation `{0 1}` against a matrix that reports `{0 1}`. -/
theorem C13_check_expectations_witness :
    ∃ pass, sat_check_expectations (fun (_ : Unit) (_ : sat_var_idx) (b : Bool) => b)
        [⟨0, some "a", true, true, true, false, true⟩] 0 () false = some pass ∧
      (pass = true ↔ ((true = false) ∨ (false = false ∧ true = true))) ∧
      ((true = false) → pass = true) :=
  C13_check_expectations (fun (_ : Unit) (_ : sat_var_idx) (b : Bool) => b)
    [⟨0, some "a", true, true, true, false, true⟩] 0
    ⟨0, some "a", true, true, true, false, true⟩ () false (by decide)

/-- The function `sat_free_expression_node` on a tree of the builders' shape:
it releases the records of the nodes of the tree and leaves the session. -/
theorem free_node_spec (s : Session) (t : sat_expression_node) :
    builder_shape t = true →
    sat_free_expression_node s t = some (s, (subtrees t).map Released.node_record) := by
  induction t with
  | leaf_variable nt o i v =>
    intro hb
    simp only [builder_shape, Bool.and_eq_true, decide_eq_true_eq] at hb
    obtain ⟨⟨hnt, _⟩, _⟩ := hb
    subst hnt
    simp [sat_free_expression_node, sat_expression_node.node_type, subtrees]
  | unary_operands nt o i x ih =>
    intro hb
    simp only [builder_shape, Bool.and_eq_true, decide_eq_true_eq] at hb
    obtain ⟨⟨hnt, ho⟩, hbx⟩ := hb
    subst hnt ho
    simp [sat_free_expression_node, sat_expression_node.node_type,
      sat_expression_node.op_type, subtrees, ih hbx]
  | binary_operands nt o i l r ihl ihr =>
    intro hb
    simp only [builder_shape, Bool.and_eq_true, decide_eq_true_eq] at hb
    obtain ⟨⟨⟨hnt, ho⟩, hbl⟩, hbr⟩ := hb
    subst hnt
    have hnot : o ≠ SAT_NOT := by rcases ho with h | h | h | h | h | h <;> simp [h]
    simp [sat_free_expression_node, sat_expression_node.node_type,
      sat_expression_node.op_type, subtrees, ihl hbl, ihr hbr, hnot]

/-- The function `sat_free_assignment` with cascade: it releases the records of
the assignments of the chain, last assignment first, and leaves the session. -/
theorem free_assignment_cascade (s : Session) (as : List sat_assignment) :
    as ≠ [] → (∀ a ∈ as, builder_shape a.expression = true) →
    sat_free_assignment s as true = some (s, (as.reverse.map records_of).flatten) := by
  induction as with
  | nil => intro h; exact absurd rfl h
  | cons a rest ih =>
    intro _ hall
    have ha := hall a (List.mem_cons_self _ _)
    cases rest with
    | nil =>
      simp [sat_free_assignment, free_node_spec s a.expression ha, records_of]
    | cons b bs =>
      have hrest := ih (by simp) (fun x hx => hall x (List.mem_cons_of_mem _ hx))
      have hstep : sat_free_assignment s (a :: b :: bs) true =
          (match sat_free_assignment s (b :: bs) true with
           | none => none
           | some (s1, r1) =>
             match sat_free_expression_node s1 a.expression with
             | none => none
             | some (s2, r2) => some (s2, r1 ++ r2 ++ [Released.assignment_record a])) := rfl
      rw [hstep, hrest]
      simp [free_node_spec s a.expression ha, records_of]

/-- The function `sat_free_assignment` without cascade: it releases the records
of the first assignment only, and leaves the session. -/
theorem free_assignment_single (s : Session) (a : sat_assignment)
    (next : List sat_assignment) (ha : builder_shape a.expression = true) :
    sat_free_assignment s (a :: next) false = some (s, records_of a) := by
  simp [sat_free_assignment, free_node_spec s a.expression ha, records_of]

/-- C14 (destruction safety).  Destroying an expression tree, or an assignment
with or without cascade over the rest of the sequence, returns the session it
was given (registry list, every variable record, identity counter) and releases
node records and assignment records only: those of the tree, respectively of
the assignments destroyed. -/
theorem C14_destruction_safety (s : Session) (t : sat_expression_node)
    (a : sat_assignment) (next : List sat_assignment) (freelist : Bool)
    (ht : builder_shape t = true)
    (hall : ∀ x ∈ a :: next, builder_shape x.expression = true) :
    sat_free_expression_node s t = some (s, (subtrees t).map Released.node_record) ∧
    (∃ rel, sat_free_assignment s (a :: next) freelist = some (s, rel) ∧
      rel = (if freelist then (((a :: next).reverse).map records_of).flatten else records_of a) ∧
      ∀ x ∈ rel, (∃ n, x = Released.node_record n) ∨ (∃ b, x = Released.assignment_record b)) := by
  refine ⟨free_node_spec s t ht, ?_⟩
  have honly : ∀ (l : List sat_assignment), ∀ x ∈ (l.map records_of).flatten,
      (∃ n, x = Released.node_record n) ∨ (∃ b, x = Released.assignment_record b) := by
    intro l x hx
    simp only [List.mem_flatten, List.mem_map] at hx
    obtain ⟨rs, ⟨b, _, hb⟩, hxr⟩ := hx
    subst hb
    simp only [records_of, List.mem_append, List.mem_map, List.mem_singleton] at hxr
    rcases hxr with ⟨n, _, hn⟩ | h
    · exact Or.inl ⟨n, hn.symm⟩
    · exact Or.inr ⟨b, h⟩
  cases freelist with
  | true =>
    refine ⟨_, free_assignment_cascade s (a :: next) (by simp) hall, by simp, ?_⟩
    exact honly _
  | false =>
    refine ⟨_, free_assignment_single s a next (hall a (List.mem_cons_self _ _)), by simp, ?_⟩
    intro x hx
    have := honly [a] x (by simpa using hx)
    exact this

/-- Witness of C14: the tree `NOT(a)` and a chain of two assignments. -/
theorem C14_destruction_safety_witness :
    sat_free_expression_node ⟨2, [0, 1], [⟨0, some "a", true, true, false, false, false⟩,
        ⟨1, some "_iv2", true, true, false, false, false⟩]⟩
      (.unary_operands SAT_EXPRESSION_NODE SAT_NOT 1
        (.leaf_variable SAT_EXPRESSION_LEAF SAT_NOP 0 0)) =
      some (⟨2, [0, 1], [⟨0, some "a", true, true, false, false, false⟩,
          ⟨1, some "_iv2", true, true, false, false, false⟩]⟩,
        (subtrees (.unary_operands SAT_EXPRESSION_NODE SAT_NOT 1
          (.leaf_variable SAT_EXPRESSION_LEAF SAT_NOP 0 0))).map Released.node_record) ∧
    (∃ rel, sat_free_assignment ⟨2, [0, 1], [⟨0, some "a", true, true, false, false, false⟩,
        ⟨1, some "_iv2", true, true, false, false, false⟩]⟩
        (⟨0, .unary_operands SAT_EXPRESSION_NODE SAT_NOT 1
            (.leaf_variable SAT_EXPRESSION_LEAF SAT_NOP 0 0)⟩ ::
          [⟨1, .leaf_variable SAT_EXPRESSION_LEAF SAT_NOP 0 0⟩]) true =
        some (⟨2, [0, 1], [⟨0, some "a", true, true, false, false, false⟩,
          ⟨1, some "_iv2", true, true, false, false, false⟩]⟩, rel) ∧
      rel = (if true = true then
          (((⟨0, .unary_operands SAT_EXPRESSION_NODE SAT_NOT 1
              (.leaf_variable SAT_EXPRESSION_LEAF SAT_NOP 0 0)⟩ ::
            [⟨1, .leaf_variable SAT_EXPRESSION_LEAF SAT_NOP 0 0⟩]).reverse).map records_of).flatten
        else records_of ⟨0, .unary_operands SAT_EXPRESSION_NODE SAT_NOT 1
              (.leaf_variable SAT_EXPRESSION_LEAF SAT_NOP 0 0)⟩) ∧
      ∀ x ∈ rel, (∃ n, x = Released.node_record n) ∨ (∃ b, x = Released.assignment_record b)) :=
  C14_destruction_safety _ _ _ _ true (by decide) (by decide)

/-- C20 (name buffer sizing).  For every `id ≥ 1` the buffer length
`3 + ceil(log10(id)) + 2`, logarithm and ceiling taken over the reals, is at
least the length of `_iv` followed by the decimal digits of `id`, plus one for
the terminator. -/
theorem C20_name_buffer_fits (id : Nat) (_h : 1 ≤ id) :
    ((name_buffer_len id : ℤ) = 3 + (⌈Real.logb 10 (id : ℝ)⌉ + 2)) ∧
    (sat_expression_var_id_to_name id).length + 1 ≤ name_buffer_len id := by
  constructor
  · have h1 : ⌈Real.logb ((10 : ℕ) : ℝ) (id : ℝ)⌉ = Int.clog 10 (id : ℝ) :=
      Real.ceil_logb_natCast (Nat.cast_nonneg id)
    rw [Int.clog_natCast] at h1
    simp only [Nat.cast_ofNat] at h1
    rw [h1, name_buffer_len]
    push_cast
    ring
  · have hlen : (Nat.repr id).length ≤ Nat.log 10 id + 1 :=
      Nat.repr_length id (Nat.log 10 id + 1) (Nat.succ_pos _)
        (Nat.lt_pow_succ_log_self (by decide) id)
    have hlog := Nat.log_le_clog 10 id
    have hname : (sat_expression_var_id_to_name id).length = 3 + (Nat.repr id).length := by
      simp [sat_expression_var_id_to_name, String.length_append]
      rfl
    rw [hname, name_buffer_len]
    omega

/-- Witness of C20: the exact power of ten `id = 100`. -/
theorem C20_name_buffer_fits_witness :
    ((name_buffer_len 100 : ℤ) = 3 + (⌈Real.logb 10 ((100 : ℕ) : ℝ)⌉ + 2)) ∧
    (sat_expression_var_id_to_name 100).length + 1 ≤ name_buffer_len 100 :=
  C20_name_buffer_fits 100 (by decide)

/-! ### Generated names -/

/-- The digit characters of the numbers below ten are decimal digits. -/
theorem digitChar_isDigit {d : Nat} (h : d < 10) : (Nat.digitChar d).isDigit = true := by
  interval_cases d <;> decide

/-- Distinct numbers below ten have distinct digit characters. -/
theorem digitChar_inj {a b : Nat} (ha : a < 10) (hb : b < 10)
    (h : Nat.digitChar a = Nat.digitChar b) : a = b := by
  interval_cases a <;> interval_cases b <;> first | rfl | (exact absurd h (by decide))

/-- The accumulator of `Nat.toDigitsCore` is a suffix of its result. -/
theorem toDigitsCore_acc (fuel : Nat) : ∀ (n : Nat) (ds : List Char),
    Nat.toDigitsCore 10 fuel n ds = Nat.toDigitsCore 10 fuel n [] ++ ds := by
  induction fuel with
  | zero => intro n ds; simp [Nat.toDigitsCore]
  | succ f ih =>
    intro n ds
    simp only [Nat.toDigitsCore]
    split_ifs with h
    · simp
    · rw [ih (n / 10) (Nat.digitChar (n % 10) :: ds), ih (n / 10) [Nat.digitChar (n % 10)]]
      simp

/-- With enough fuel, the result of `Nat.toDigitsCore` does not depend on it. -/
theorem toDigitsCore_fuel (f1 : Nat) : ∀ (f2 n : Nat) (ds : List Char), n < f1 → n < f2 →
    Nat.toDigitsCore 10 f1 n ds = Nat.toDigitsCore 10 f2 n ds := by
  induction f1 with
  | zero => intro f2 n ds h; omega
  | succ f ih =>
    intro f2 n ds h1 h2
    cases f2 with
    | zero => omega
    | succ g =>
      simp only [Nat.toDigitsCore]
      split_ifs with h
      · rfl
      · have hlt : n / 10 < n := Nat.div_lt_self (by omega) (by decide)
        exact ih g (n / 10) _ (by omega) (by omega)

/-- The decimal digits of a number below ten. -/
theorem toDigits_small {n : Nat} (h : n < 10) : Nat.toDigits 10 n = [Nat.digitChar n] := by
  have h0 : n / 10 = 0 := Nat.div_eq_of_lt h
  simp [Nat.toDigits, Nat.toDigitsCore, h0, Nat.mod_eq_of_lt h]

/-- The decimal digits of a number from ten on: those of its tenth, then its
last digit. -/
theorem toDigits_large {n : Nat} (h : 10 ≤ n) :
    Nat.toDigits 10 n = Nat.toDigits 10 (n / 10) ++ [Nat.digitChar (n % 10)] := by
  have h0 : n / 10 ≠ 0 := by omega
  have hlt : n / 10 < n := Nat.div_lt_self (by omega) (by decide)
  have hstep : Nat.toDigits 10 n =
      Nat.toDigitsCore 10 n (n / 10) [Nat.digitChar (n % 10)] := by
    simp only [Nat.toDigits, Nat.toDigitsCore, h0, if_false]
  rw [hstep, toDigitsCore_acc, toDigitsCore_fuel n (n / 10 + 1) (n / 10) [] hlt (by omega)]
  rfl

/-- The decimal digits of a number are not empty. -/
theorem toDigits_ne_nil (n : Nat) : Nat.toDigits 10 n ≠ [] := by
  by_cases h : n < 10
  · rw [toDigits_small h]; simp
  · rw [toDigits_large (n := n) (by omega)]; simp

/-- The decimal digits of a number are decimal digit characters. -/
theorem toDigits_isDigit (n : Nat) : ∀ c ∈ Nat.toDigits 10 n, c.isDigit = true := by
  induction n using Nat.strong_induction_on with
  | _ n ih =>
    by_cases h : n < 10
    · rw [toDigits_small h]
      intro c hc
      rw [List.mem_singleton] at hc
      rw [hc]
      exact digitChar_isDigit h
    · rw [toDigits_large (n := n) (by omega)]
      intro c hc
      rcases List.mem_append.mp hc with h1 | h1
      · exact ih (n / 10) (Nat.div_lt_self (by omega) (by decide)) c h1
      · rw [List.mem_singleton] at h1
        rw [h1]
        exact digitChar_isDigit (Nat.mod_lt _ (by decide))

/-- Distinct numbers have distinct decimal digits. -/
theorem toDigits_inj : ∀ (n m : Nat), Nat.toDigits 10 n = Nat.toDigits 10 m → n = m := by
  intro n
  induction n using Nat.strong_induction_on with
  | _ n ih =>
    intro m hnm
    by_cases hn : n < 10
    · by_cases hm : m < 10
      · rw [toDigits_small hn, toDigits_small hm] at hnm
        exact digitChar_inj hn hm (List.singleton_inj.mp hnm)
      · rw [toDigits_small hn, toDigits_large (n := m) (by omega)] at hnm
        have hlen := congrArg List.length hnm
        have hpos : 0 < (Nat.toDigits 10 (m / 10)).length :=
          List.length_pos.mpr (toDigits_ne_nil _)
        rw [List.length_append, List.length_singleton, List.length_singleton] at hlen
        omega
    · by_cases hm : m < 10
      · rw [toDigits_large (n := n) (by omega), toDigits_small hm] at hnm
        have hlen := congrArg List.length hnm
        have hpos : 0 < (Nat.toDigits 10 (n / 10)).length :=
          List.length_pos.mpr (toDigits_ne_nil _)
        rw [List.length_append, List.length_singleton, List.length_singleton] at hlen
        omega
      · rw [toDigits_large (n := n) (by omega), toDigits_large (n := m) (by omega)] at hnm
        obtain ⟨h1, h2⟩ := List.append_inj' hnm rfl
        have hdiv := ih (n / 10) (Nat.div_lt_self (by omega) (by decide)) (m / 10) h1
        have hmod := digitChar_inj (Nat.mod_lt _ (by decide)) (Nat.mod_lt _ (by decide))
          (List.singleton_inj.mp h2)
        omega

/-- A generated name has the form `_iv` followed by decimal digits. -/
theorem iv_form_generated (k : Nat) : iv_form (sat_expression_var_id_to_name k) = true := by
  have hdata : (sat_expression_var_id_to_name k).data =
      '_' :: 'i' :: 'v' :: Nat.toDigits 10 k := by
    simp [sat_expression_var_id_to_name, Nat.repr, String.data_append, List.asString]
  have hne := toDigits_ne_nil k
  have hdig := toDigits_isDigit k
  unfold iv_form
  rw [hdata]
  cases hd : Nat.toDigits 10 k with
  | nil => exact absurd hd hne
  | cons d ds =>
    rw [hd] at hdig
    simp only [List.all_eq_true]
    exact hdig

/-- Distinct numbers have distinct generated names. -/
theorem generated_name_inj {k m : Nat}
    (h : sat_expression_var_id_to_name k = sat_expression_var_id_to_name m) : k = m := by
  have hk : (sat_expression_var_id_to_name k).data = '_' :: 'i' :: 'v' :: Nat.toDigits 10 k := by
    simp [sat_expression_var_id_to_name, Nat.repr, String.data_append, List.asString]
  have hm : (sat_expression_var_id_to_name m).data = '_' :: 'i' :: 'v' :: Nat.toDigits 10 m := by
    simp [sat_expression_var_id_to_name, Nat.repr, String.data_append, List.asString]
  have hdata := congrArg String.data h
  rw [hk, hm] at hdata
  simp only [List.cons.injEq, true_and] at hdata
  exact toDigits_inj k m hdata

/-! ### The calls of the lowering -/

/-- Reading the identity at the address of a record. -/
theorem uid_at_eq {heap : List sat_expression_variable} {p : VarRef}
    {w : sat_expression_variable} (h : heap[p]? = some w) : uid_at heap p = w.uid := by
  simp [uid_at, h]

/-- The lowering of a tree of the builders' shape whose references are valid
makes the calls `emitted`. -/
theorem lowering_emitted (heap : List sat_expression_variable) (t : sat_expression_node) :
    builder_shape t = true → refs_valid heap t = true →
    sat_add_expression_to_imp_matrix heap 0 [] t = some (emitted heap t) := by
  induction t with
  | leaf_variable nt o i w =>
    intro hb hr
    simp only [builder_shape, Bool.and_eq_true, decide_eq_true_eq] at hb
    simp only [refs_valid, Bool.and_eq_true, decide_eq_true_eq] at hr
    obtain ⟨⟨hnt, _⟩, _⟩ := hb
    subst hnt
    obtain ⟨W, hw⟩ := ref_read hr.2
    simp [sat_add_expression_to_imp_matrix, sat_expression_node.node_type,
      sat_apply_unary_constraints, hw, sat_set_domain, emitted]
  | unary_operands nt o i x ih =>
    intro hb hr
    simp only [builder_shape, Bool.and_eq_true, decide_eq_true_eq] at hb
    simp only [refs_valid, Bool.and_eq_true, decide_eq_true_eq] at hr
    obtain ⟨⟨hnt, ho⟩, hbx⟩ := hb
    subst hnt ho
    obtain ⟨I, hi⟩ := ref_read hr.1
    obtain ⟨X, hx⟩ := ref_read (ir_valid hr.2)
    simp only [sat_add_expression_to_imp_matrix, sat_expression_node.node_type,
      sat_expression_node.op_type]
    rw [lowering_of_calls (ih hbx hr.2) (0 + 1) []]
    simp [hi, hx, sat_add_relation, emitted, uid_at_eq hi, uid_at_eq hx]
  | binary_operands nt o i l r ihl ihr =>
    intro hb hr
    simp only [builder_shape, Bool.and_eq_true, decide_eq_true_eq] at hb
    simp only [refs_valid, Bool.and_eq_true, decide_eq_true_eq] at hr
    obtain ⟨⟨⟨hnt, ho⟩, hbl⟩, hbr⟩ := hb
    subst hnt
    obtain ⟨I, hi⟩ := ref_read hr.1.1
    obtain ⟨L, hlx⟩ := ref_read (ir_valid hr.1.2)
    obtain ⟨R, hrx⟩ := ref_read (ir_valid hr.2)
    have hnot : o ≠ SAT_NOT := by rcases ho with h | h | h | h | h | h <;> simp [h]
    have hbin : o = SAT_AND ∨ o = SAT_NAND ∨ o = SAT_OR ∨ o = SAT_NOR ∨ o = SAT_XOR ∨
        o = SAT_NXOR ∨ o = SAT_AND := by
      rcases ho with h | h | h | h | h | h <;> simp [h]
    simp only [sat_add_expression_to_imp_matrix, sat_expression_node.node_type,
      sat_expression_node.op_type]
    rw [lowering_of_calls (ihr hbr hr.2) (0 + 1) [], if_neg (by decide), if_neg hnot,
      if_pos hbin]
    simp only []
    rw [lowering_of_calls (ihl hbl hr.1.2) (0 + 1) ([] ++ emitted heap r), hi, hlx, hrx]
    simp [sat_add_relation, emitted, uid_at_eq hi, uid_at_eq hlx, uid_at_eq hrx]

/-- The relation results of a concatenation. -/
theorem relation_results_append (a b : List MatrixCall) :
    relation_results (a ++ b) = relation_results a ++ relation_results b := by
  induction a with
  | nil => rfl
  | cons c cs ih => cases c <;> simp [relation_results, ih]

/-- The restricted identities of a concatenation. -/
theorem restricted_ids_append (a b : List MatrixCall) :
    restricted_ids (a ++ b) = restricted_ids a ++ restricted_ids b := by
  induction a with
  | nil => rfl
  | cons c cs ih => cases c <;> simp [restricted_ids, ih]

/-- The number of relations of a call sequence. -/
theorem countP_is_relation (calls : List MatrixCall) :
    calls.countP is_relation = (relation_results calls).length := by
  induction calls with
  | nil => rfl
  | cons c cs ih => cases c <;> simp [relation_results, is_relation, ih]

/-- The number of domain restrictions of a call sequence. -/
theorem countP_is_set_domain (calls : List MatrixCall) :
    calls.countP is_set_domain = (restricted_ids calls).length := by
  induction calls with
  | nil => rfl
  | cons c cs ih => cases c <;> simp [restricted_ids, is_set_domain, ih]

/-- The relations of the emitted calls have the identities of the `ir` of the
operator nodes as results. -/
theorem emitted_results (heap : List sat_expression_variable) (t : sat_expression_node) :
    relation_results (emitted heap t) = (operator_irs t).map (uid_at heap) := by
  induction t with
  | leaf_variable nt o i w =>
    simp only [emitted, operator_irs, List.map_nil]
    cases heap[w]? <;> rfl
  | unary_operands nt o i x ih =>
    simp [emitted, operator_irs, relation_results_append, ih, relation_results]
  | binary_operands nt o i l r ihl ihr =>
    simp [emitted, operator_irs, relation_results_append, ihl, ihr, relation_results]

/-- The emitted calls restrict the identities of the variables of the leaves. -/
theorem emitted_restricted (heap : List sat_expression_variable) (t : sat_expression_node) :
    refs_valid heap t = true →
    restricted_ids (emitted heap t) = (leaf_variables t).map (uid_at heap) := by
  induction t with
  | leaf_variable nt o i w =>
    intro hr
    simp only [refs_valid, Bool.and_eq_true, decide_eq_true_eq] at hr
    obtain ⟨W, hw⟩ := ref_read hr.2
    simp [emitted, leaf_variables, hw, restricted_ids, uid_at_eq hw]
  | unary_operands nt o i x ih =>
    intro hr
    simp only [refs_valid, Bool.and_eq_true, decide_eq_true_eq] at hr
    simp [emitted, leaf_variables, restricted_ids_append, ih hr.2, restricted_ids]
  | binary_operands nt o i l r ihl ihr =>
    intro hr
    simp only [refs_valid, Bool.and_eq_true, decide_eq_true_eq] at hr
    simp [emitted, leaf_variables, restricted_ids_append, ihl hr.1.2, ihr hr.2,
      restricted_ids]

/-- The first component of `sat_add_expression_to_imp_matrix_printed` is
`sat_add_expression_to_imp_matrix`. -/
theorem printed_fst (heap : List sat_expression_variable) (t : sat_expression_node) :
    ∀ (d : Nat) (m : sat_imp_matrix) (out : List sat_binary_op),
      (sat_add_expression_to_imp_matrix_printed heap d m out t).map Prod.fst =
        sat_add_expression_to_imp_matrix heap d m t := by
  induction t with
  | leaf_variable nt o i v =>
    intro d m out
    simp only [sat_add_expression_to_imp_matrix_printed, sat_add_expression_to_imp_matrix,
      sat_expression_node.node_type, sat_expression_node.op_type]
    split_ifs
    · cases sat_apply_unary_constraints heap m v <;> rfl
    · rfl
    · rfl
    · rfl
  | unary_operands nt o i x ih =>
    intro d m out
    simp only [sat_add_expression_to_imp_matrix_printed, sat_add_expression_to_imp_matrix,
      sat_expression_node.node_type, sat_expression_node.op_type]
    split_ifs
    · rfl
    · rw [← ih (d + 1) m out]
      cases sat_add_expression_to_imp_matrix_printed heap (d + 1) m out x with
      | none => rfl
      | some r =>
        obtain ⟨m1, out1⟩ := r
        cases heap[i]? <;> cases heap[x.ir]? <;> rfl
    · rfl
    · rfl
  | binary_operands nt o i l r ihl ihr =>
    intro d m out
    simp only [sat_add_expression_to_imp_matrix_printed, sat_add_expression_to_imp_matrix,
      sat_expression_node.node_type, sat_expression_node.op_type]
    split_ifs
    · rfl
    · rfl
    · rw [← ihr (d + 1) m out]
      cases sat_add_expression_to_imp_matrix_printed heap (d + 1) m out r with
      | none => rfl
      | some r1 =>
        obtain ⟨m1, out1⟩ := r1
        simp only [Option.map_some']
        rw [← ihl (d + 1) m1 out1]
        cases sat_add_expression_to_imp_matrix_printed heap (d + 1) m1 out1 l with
        | none => rfl
        | some r2 =>
          obtain ⟨m2, out2⟩ := r2
          cases heap[i]? <;> cases heap[l.ir]? <;> cases heap[r.ir]? <;> rfl
    · rfl

/-- On a tree of the builders' shape whose references are valid the lowering
prints nothing. -/
theorem printed_nothing (heap : List sat_expression_variable) (t : sat_expression_node) :
    builder_shape t = true → refs_valid heap t = true →
    ∀ (d : Nat) (m : sat_imp_matrix) (out : List sat_binary_op),
      sat_add_expression_to_imp_matrix_printed heap d m out t =
        some (m ++ emitted heap t, out) := by
  induction t with
  | leaf_variable nt o i w =>
    intro hb hr d m out
    simp only [builder_shape, Bool.and_eq_true, decide_eq_true_eq] at hb
    simp only [refs_valid, Bool.and_eq_true, decide_eq_true_eq] at hr
    obtain ⟨⟨hnt, _⟩, _⟩ := hb
    subst hnt
    obtain ⟨W, hw⟩ := ref_read hr.2
    simp [sat_add_expression_to_imp_matrix_printed, sat_expression_node.node_type,
      sat_apply_unary_constraints, hw, sat_set_domain, emitted]
  | unary_operands nt o i x ih =>
    intro hb hr d m out
    simp only [builder_shape, Bool.and_eq_true, decide_eq_true_eq] at hb
    simp only [refs_valid, Bool.and_eq_true, decide_eq_true_eq] at hr
    obtain ⟨⟨hnt, ho⟩, hbx⟩ := hb
    subst hnt ho
    obtain ⟨I, hi⟩ := ref_read hr.1
    obtain ⟨X, hx⟩ := ref_read (ir_valid hr.2)
    simp only [sat_add_expression_to_imp_matrix_printed, sat_expression_node.node_type,
      sat_expression_node.op_type]
    rw [ih hbx hr.2 (d + 1) m out]
    simp [hi, hx, sat_add_relation, emitted, uid_at_eq hi, uid_at_eq hx]
  | binary_operands nt o i l r ihl ihr =>
    intro hb hr d m out
    simp only [builder_shape, Bool.and_eq_true, decide_eq_true_eq] at hb
    simp only [refs_valid, Bool.and_eq_true, decide_eq_true_eq] at hr
    obtain ⟨⟨⟨hnt, ho⟩, hbl⟩, hbr⟩ := hb
    subst hnt
    obtain ⟨I, hi⟩ := ref_read hr.1.1
    obtain ⟨L, hlx⟩ := ref_read (ir_valid hr.1.2)
    obtain ⟨R, hrx⟩ := ref_read (ir_valid hr.2)
    have hnot : o ≠ SAT_NOT := by rcases ho with h | h | h | h | h | h <;> simp [h]
    have hbin : o = SAT_AND ∨ o = SAT_NAND ∨ o = SAT_OR ∨ o = SAT_NOR ∨ o = SAT_XOR ∨
        o = SAT_NXOR ∨ o = SAT_AND := by
      rcases ho with h | h | h | h | h | h <;> simp [h]
    simp only [sat_add_expression_to_imp_matrix_printed, sat_expression_node.node_type,
      sat_expression_node.op_type]
    rw [ihr hbr hr.2 (d + 1) m out, if_neg (by decide), if_neg hnot, if_pos hbin]
    simp only []
    rw [ihl hbl hr.1.2 (d + 1) (m ++ emitted heap r) out, hi, hlx, hrx]
    simp [sat_add_relation, emitted, uid_at_eq hi, uid_at_eq hlx, uid_at_eq hrx]

/-- Every node of a tree of the builders' shape is one the lowering knows. -/
theorem known_of_builder_shape (t : sat_expression_node) :
    builder_shape t = true → ∀ n ∈ subtrees t, known_node n = true := by
  induction t with
  | leaf_variable nt o i w =>
    intro hb n hn
    simp only [builder_shape, Bool.and_eq_true, decide_eq_true_eq] at hb
    simp only [subtrees, List.mem_singleton] at hn
    subst hn
    simp [known_node, hb.1.1]
  | unary_operands nt o i x ih =>
    intro hb n hn
    simp only [builder_shape, Bool.and_eq_true, decide_eq_true_eq] at hb
    simp only [subtrees, List.mem_append, List.mem_singleton] at hn
    rcases hn with hn | hn
    · exact ih hb.2 n hn
    · subst hn
      simp [known_node, hb.1.1, hb.1.2]
  | binary_operands nt o i l r ihl ihr =>
    intro hb n hn
    simp only [builder_shape, Bool.and_eq_true, decide_eq_true_eq] at hb
    simp only [subtrees, List.mem_append, List.mem_singleton] at hn
    rcases hn with (hn | hn) | hn
    · exact ihl hb.1.2 n hn
    · exact ihr hb.2 n hn
    · subst hn
      have ho := hb.1.1.2
      have ho2 : o = SAT_AND ∨ o = SAT_OR ∨ o = SAT_XOR ∨ o = SAT_NAND ∨ o = SAT_NOR ∨
          o = SAT_NXOR := by
        rcases ho with h | h | h | h | h | h <;> simp [h]
      simp [known_node, hb.1.1.1, ho2]

/-! ### Definition before use -/

/-- A single domain restriction uses nothing. -/
theorem defined_before_use_set_domain (i : sat_var_idx) (b0 b1 : Bool) :
    defined_before_use [MatrixCall.set_domain i b0 b1] := by
  intro before after res l op r h
  cases before with
  | nil => simp at h
  | cons c cs =>
    simp only [List.cons_append, List.cons.injEq] at h
    have := h.2
    cases cs <;> simp at this

/-- The empty sequence uses nothing. -/
theorem defined_before_use_nil : defined_before_use [] := by
  intro before after res l op r h
  cases before <;> simp at h

/-- Two sequences that define before use, one after the other. -/
theorem defined_before_use_append {a b : List MatrixCall}
    (ha : defined_before_use a) (hb : defined_before_use b) :
    defined_before_use (a ++ b) := by
  intro before after res l op r h
  rcases List.append_eq_append_iff.mp h with ⟨a1, h1, h2⟩ | ⟨c1, h1, h2⟩
  · obtain ⟨⟨c, hc, hcl⟩, ⟨e, he, her⟩⟩ := hb a1 after res l op r h2
    rw [h1]
    exact ⟨⟨c, List.mem_append_right _ hc, hcl⟩, ⟨e, List.mem_append_right _ he, her⟩⟩
  · cases c1 with
    | nil =>
      simp only [List.nil_append, List.append_nil] at h1 h2
      obtain ⟨⟨c, hc, _⟩, _⟩ := hb [] after res l op r h2.symm
      simp at hc
    | cons c cs =>
      simp only [List.cons_append, List.cons.injEq] at h2
      obtain ⟨h3, _⟩ := h2
      rw [← h3] at h1
      exact ha before cs res l op r h1

/-- A relation whose operands are defined by the sequence may follow it. -/
theorem defined_before_use_snoc {a : List MatrixCall} (ha : defined_before_use a)
    (res l : sat_var_idx) (op : sat_binary_op) (r : sat_var_idx)
    (hl : ∃ c ∈ a, defines l c = true) (hr : ∃ c ∈ a, defines r c = true) :
    defined_before_use (a ++ [MatrixCall.add_relation res l op r]) := by
  intro before after res1 l1 op1 r1 h
  rcases List.append_eq_append_iff.mp h with ⟨a1, h1, h2⟩ | ⟨c1, h1, h2⟩
  · cases a1 with
    | nil =>
      simp only [List.nil_append, List.cons.injEq, MatrixCall.add_relation.injEq] at h2
      simp only [List.append_nil] at h1
      obtain ⟨⟨_, h3, _, h4⟩, _⟩ := h2
      subst h1 h3 h4
      exact ⟨hl, hr⟩
    | cons c cs =>
      simp only [List.cons_append, List.cons.injEq] at h2
      have := h2.2
      cases cs <;> simp at this
  · cases c1 with
    | nil =>
      simp only [List.nil_append, List.append_nil, List.cons.injEq,
        MatrixCall.add_relation.injEq] at h1 h2
      obtain ⟨⟨h3, h4, _, h5⟩, _⟩ := h2
      subst h1 h3 h4 h5
      exact ⟨hl, hr⟩
    | cons c cs =>
      simp only [List.cons_append, List.cons.injEq] at h2
      obtain ⟨h3, _⟩ := h2
      rw [← h3] at h1
      exact ha before cs res1 l1 op1 r1 h1

/-- The emitted calls of a tree of the builders' shape define the identity of
the `ir` of its root. -/
theorem emitted_defines_root (heap : List sat_expression_variable) (t : sat_expression_node)
    (hb : builder_shape t = true) (hr : refs_valid heap t = true) :
    ∃ c ∈ emitted heap t, defines (uid_at heap t.ir) c = true := by
  cases t with
  | leaf_variable nt o i w =>
    simp only [builder_shape, Bool.and_eq_true, decide_eq_true_eq] at hb
    simp only [refs_valid, Bool.and_eq_true, decide_eq_true_eq] at hr
    obtain ⟨W, hw⟩ := ref_read hr.2
    have hiw : i = w := hb.2
    subst hiw
    exact ⟨MatrixCall.set_domain W.uid W.can_be_0 W.can_be_1,
      by simp [emitted, hw], by simp [defines, sat_expression_node.ir, uid_at_eq hw]⟩
  | unary_operands nt o i x =>
    exact ⟨MatrixCall.add_relation (uid_at heap i) (uid_at heap x.ir) SAT_NAND
      (uid_at heap x.ir), by simp [emitted], by simp [defines, sat_expression_node.ir]⟩
  | binary_operands nt o i l r =>
    exact ⟨MatrixCall.add_relation (uid_at heap i) (uid_at heap l.ir) o (uid_at heap r.ir),
      by simp [emitted], by simp [defines, sat_expression_node.ir]⟩

/-- The emitted calls of a tree of the builders' shape define before use. -/
theorem emitted_defined_before_use (heap : List sat_expression_variable)
    (t : sat_expression_node) :
    builder_shape t = true → refs_valid heap t = true →
    defined_before_use (emitted heap t) := by
  induction t with
  | leaf_variable nt o i w =>
    intro _ _
    simp only [emitted]
    cases heap[w]? with
    | none => exact defined_before_use_nil
    | some W => exact defined_before_use_set_domain _ _ _
  | unary_operands nt o i x ih =>
    intro hb hr
    simp only [builder_shape, Bool.and_eq_true, decide_eq_true_eq] at hb
    simp only [refs_valid, Bool.and_eq_true, decide_eq_true_eq] at hr
    have hx := emitted_defines_root heap x hb.2 hr.2
    exact defined_before_use_snoc (ih hb.2 hr.2) _ _ _ _ hx hx
  | binary_operands nt o i l r ihl ihr =>
    intro hb hr
    simp only [builder_shape, Bool.and_eq_true, decide_eq_true_eq] at hb
    simp only [refs_valid, Bool.and_eq_true, decide_eq_true_eq] at hr
    obtain ⟨cl, hcl, hdl⟩ := emitted_defines_root heap l hb.1.2 hr.1.2
    obtain ⟨cr, hcr, hdr⟩ := emitted_defines_root heap r hb.2 hr.2
    exact defined_before_use_snoc
      (defined_before_use_append (ihr hb.2 hr.2) (ihl hb.1.2 hr.1.2)) _ _ _ _
      ⟨cl, List.mem_append_right _ hcl, hdl⟩ ⟨cr, List.mem_append_left _ hcr, hdr⟩

/-- Every identity the emitted calls pass to the matrix is read from a record
of the heap. -/
theorem emitted_ids (heap : List sat_expression_variable) (t : sat_expression_node) :
    refs_valid heap t = true →
    ∀ c ∈ emitted heap t, ∀ i ∈ call_ids c, ∃ p, p < heap.length ∧ i = uid_at heap p := by
  induction t with
  | leaf_variable nt o i w =>
    intro hr c hc j hj
    simp only [refs_valid, Bool.and_eq_true, decide_eq_true_eq] at hr
    obtain ⟨W, hw⟩ := ref_read hr.2
    simp only [emitted, hw, List.mem_singleton] at hc
    subst hc
    simp only [call_ids, List.mem_singleton] at hj
    exact ⟨w, hr.2, by rw [hj, uid_at_eq hw]⟩
  | unary_operands nt o i x ih =>
    intro hr c hc j hj
    simp only [refs_valid, Bool.and_eq_true, decide_eq_true_eq] at hr
    simp only [emitted, List.mem_append, List.mem_singleton] at hc
    rcases hc with hc | hc
    · exact ih hr.2 c hc j hj
    · subst hc
      simp only [call_ids, List.mem_cons, List.mem_singleton, List.not_mem_nil, or_false] at hj
      rcases hj with hj | hj | hj
      · exact ⟨i, hr.1, hj⟩
      · exact ⟨x.ir, ir_valid hr.2, hj⟩
      · exact ⟨x.ir, ir_valid hr.2, hj⟩
  | binary_operands nt o i l r ihl ihr =>
    intro hr c hc j hj
    simp only [refs_valid, Bool.and_eq_true, decide_eq_true_eq] at hr
    simp only [emitted, List.mem_append, List.mem_singleton] at hc
    rcases hc with (hc | hc) | hc
    · exact ihr hr.2 c hc j hj
    · exact ihl hr.1.2 c hc j hj
    · subst hc
      simp only [call_ids, List.mem_cons, List.mem_singleton, List.not_mem_nil, or_false] at hj
      rcases hj with hj | hj | hj
      · exact ⟨i, hr.1.1, hj⟩
      · exact ⟨l.ir, ir_valid hr.1.2, hj⟩
      · exact ⟨r.ir, ir_valid hr.2, hj⟩

/-! ### Sessions of the front end -/

/-- Writing hints keeps the number of records. -/
theorem set_hints_length (heap : List sat_expression_variable) (p : VarRef)
    (c0 c1 cd e0 e1 : Bool) : (set_hints heap p c0 c1 cd e0 e1).length = heap.length := by
  simp [set_hints]

/-- Writing hints keeps every stored name. -/
theorem stored_name_set_hints (heap : List sat_expression_variable) (p q : VarRef)
    (c0 c1 cd e0 e1 : Bool) :
    stored_name (set_hints heap p c0 c1 cd e0 e1) q = stored_name heap q := by
  simp only [stored_name, set_hints, List.getElem?_modify]
  cases heap[q]? with
  | none => rfl
  | some w => by_cases h : p = q <;> simp [h]

/-- Writing hints keeps every stored identity. -/
theorem uid_at_set_hints (heap : List sat_expression_variable) (p q : VarRef)
    (c0 c1 cd e0 e1 : Bool) :
    uid_at (set_hints heap p c0 c1 cd e0 e1) q = uid_at heap q := by
  simp only [uid_at, set_hints, List.getElem?_modify]
  cases heap[q]? with
  | none => rfl
  | some w => by_cases h : p = q <;> simp [h]

/-- Writing hints keeps the identities of the records. -/
theorem map_uid_set_hints (heap : List sat_expression_variable) (p : VarRef)
    (c0 c1 cd e0 e1 : Bool) :
    (set_hints heap p c0 c1 cd e0 e1).map (fun v => v.uid) = heap.map (fun v => v.uid) := by
  apply List.ext_getElem?
  intro q
  simp only [List.getElem?_map, set_hints, List.getElem?_modify]
  cases heap[q]? with
  | none => rfl
  | some w => by_cases h : p = q <;> simp [h]

/-- The two outcomes of `sat_new_named_expression_variable` on a well-formed
registry: the name is found and nothing changes, or a variable is allocated. -/
theorem named_cases {name : sat_var_name} {s s1 : Session} {p : VarRef}
    (hok : registry_ok s = true)
    (h : sat_new_named_expression_variable name s = some (p, s1)) :
    (some name ∈ registry_names s ∧ s1 = s ∧ p ∈ s.yy_sat_variables ∧
      stored_name s.heap p = some name) ∨
    (some name ∉ registry_names s ∧ p = s.heap.length ∧ s1 = (named_fresh name s).2) := by
  by_cases hmem : some name ∈ registry_names s
  · obtain ⟨q, hcall, hq, hname⟩ := named_found hok hmem
    rw [hcall] at h
    obtain ⟨h1, h2⟩ := Prod.mk.inj (Option.some.inj h)
    subst h1 h2
    exact Or.inl ⟨hmem, rfl, hq, hname⟩
  · rw [named_missing hok hmem] at h
    obtain ⟨h1, h2⟩ := Prod.mk.inj (Option.some.inj h)
    exact Or.inr ⟨hmem, h1.symm, h2.symm⟩

/-- The call `sat_new_expression_node` without an `ir` is the declaration of
the generated name. -/
theorem node_is_named {t : sat_expression_node_type} {s s1 : Session} {ir : VarRef}
    (h : sat_new_expression_node t none s = some ((t, ir), s1)) :
    sat_new_named_expression_variable
      (sat_expression_var_id_to_name (s.yy_id_counter + 1)) s = some (ir, s1) := by
  unfold sat_new_expression_node at h
  simp only [] at h
  cases hcall : sat_new_named_expression_variable
      (sat_expression_var_id_to_name (s.yy_id_counter + 1)) s with
  | none => simp [hcall] at h
  | some r =>
    obtain ⟨q, s2⟩ := r
    simp only [hcall, Option.some.injEq, Prod.mk.injEq, true_and] at h
    rw [h.1, h.2]

/-- A named declaration keeps the registry well formed and the identities of
the records equal to their rank; the variable it returns is a record. -/
theorem named_step {name : sat_var_name} {s s1 : Session} {p : VarRef}
    (hok : registry_ok s = true)
    (hu : s.heap.map (fun v => v.uid) = List.range s.yy_id_counter)
    (h : sat_new_named_expression_variable name s = some (p, s1)) :
    registry_ok s1 = true ∧
    s1.heap.map (fun v => v.uid) = List.range s1.yy_id_counter ∧
    p < s1.heap.length ∧ s.heap.length ≤ s1.heap.length := by
  rcases named_cases hok h with ⟨_, h1, hp, _⟩ | ⟨_, hp, h1⟩
  · subst h1
    exact ⟨hok, hu, registry_lt hok p hp, Nat.le_refl _⟩
  · subst h1 hp
    refine ⟨registry_ok_fresh name hok, ?_, ?_, ?_⟩
    · simp only [named_fresh, List.map_append, List.map_cons, List.map_nil, hu,
        List.range_succ]
    · simp [named_fresh]
    · simp [named_fresh]

/-- The invariant of the sessions of the front end: the registry is well
formed, the identity of every record is its rank of creation, the declared
variables are records, and the trees of the pool have the builders' shape and
valid references. -/
theorem workshop_general {allowed : sat_var_name → Prop} {s : Session}
    {declared : List VarRef} {pool : List sat_expression_node}
    (h : Workshop allowed s declared pool) :
    registry_ok s = true ∧
    s.heap.map (fun v => v.uid) = List.range s.yy_id_counter ∧
    (∀ v ∈ declared, v < s.heap.length) ∧
    (∀ t ∈ pool, builder_shape t = true ∧ refs_valid s.heap t = true) := by
  induction h with
  | fresh => exact ⟨by decide, rfl, by simp, by simp⟩
  | @anonymous s declared pool _ ih =>
    obtain ⟨hok, hu, hd, hp⟩ := ih
    refine ⟨registry_ok_anon hok, ?_, ?_, ?_⟩
    · simp only [sat_new_expression_variable, List.map_append, List.map_cons, List.map_nil,
        hu, List.range_succ]
    · intro v hv
      rcases List.mem_cons.mp hv with h1 | h1
      · rw [h1]; simp [sat_new_expression_variable]
      · have := hd v h1
        simp only [sat_new_expression_variable, List.length_append, List.length_singleton]
        exact Nat.lt_succ_of_lt this
    · intro t ht
      exact ⟨(hp t ht).1, refs_valid_mono (by simp [sat_new_expression_variable]) t (hp t ht).2⟩
  | @named s s1 declared pool name p _ _ hcall ih =>
    obtain ⟨hok, hu, hd, hp⟩ := ih
    obtain ⟨hok1, hu1, hp1, hle⟩ := named_step hok hu hcall
    refine ⟨hok1, hu1, ?_, ?_⟩
    · intro v hv
      rcases List.mem_cons.mp hv with h1 | h1
      · rw [h1]; exact hp1
      · exact Nat.lt_of_lt_of_le (hd v h1) hle
    · intro t ht
      exact ⟨(hp t ht).1, refs_valid_mono hle t (hp t ht).2⟩
  | @hints s declared pool p c0 c1 cd e0 e1 _ ih =>
    obtain ⟨hok, hu, hd, hp⟩ := ih
    refine ⟨?_, ?_, ?_, ?_⟩
    · simp only [registry_ok, stored_name_set_hints]
      exact hok
    · simp only [map_uid_set_hints]
      exact hu
    · intro v hv
      simp only [set_hints_length]
      exact hd v hv
    · intro t ht
      exact ⟨(hp t ht).1,
        refs_valid_mono (by simp [set_hints_length]) t (hp t ht).2⟩
  | @leaf s s1 declared pool v n _ hv hcall ih =>
    obtain ⟨hok, hu, hd, hp⟩ := ih
    obtain ⟨hn, hs⟩ := leaf_built hcall
    subst hs hn
    refine ⟨hok, hu, hd, ?_⟩
    intro t ht
    rcases List.mem_cons.mp ht with h1 | h1
    · subst h1
      simp [builder_shape, refs_valid, hv]
    · exact hp t h1
  | @unary s s1 declared pool rest c n op _ hperm hcall ih =>
    obtain ⟨hok, hu, hd, hp⟩ := ih
    obtain ⟨_, ir, hn, hnode⟩ := unary_built hcall
    obtain ⟨hok1, hu1, hir, hle⟩ := named_step hok hu (node_is_named hnode)
    have hc := hp c (hperm.mem_iff.mpr (List.mem_cons_self _ _))
    refine ⟨hok1, hu1, fun v hv => Nat.lt_of_lt_of_le (hd v hv) hle, ?_⟩
    intro t ht
    rcases List.mem_cons.mp ht with h1 | h1
    · subst h1 hn
      have hcv := refs_valid_mono hle c hc.2
      simp [builder_shape, refs_valid, hc.1, hcv, hir]
    · have := hp t (hperm.mem_iff.mpr (List.mem_cons_of_mem _ h1))
      exact ⟨this.1, refs_valid_mono hle t this.2⟩
  | @binary s s1 declared pool rest l r n op _ hperm hcall ih =>
    obtain ⟨hok, hu, hd, hp⟩ := ih
    obtain ⟨hop, ir, hn, hnode⟩ := binary_built hcall
    obtain ⟨hok1, hu1, hir, hle⟩ := named_step hok hu (node_is_named hnode)
    have hl := hp l (hperm.mem_iff.mpr (List.mem_cons_self _ _))
    have hr := hp r (hperm.mem_iff.mpr (List.mem_cons_of_mem _ (List.mem_cons_self _ _)))
    refine ⟨hok1, hu1, fun v hv => Nat.lt_of_lt_of_le (hd v hv) hle, ?_⟩
    intro t ht
    rcases List.mem_cons.mp ht with h1 | h1
    · subst h1 hn
      have hlv := refs_valid_mono hle l hl.2
      have hrv := refs_valid_mono hle r hr.2
      simp [builder_shape, refs_valid, hl.1, hr.1, hlv, hrv, hir, hop]
    · have := hp t (hperm.mem_iff.mpr
        (List.mem_cons_of_mem _ (List.mem_cons_of_mem _ h1)))
      exact ⟨this.1, refs_valid_mono hle t this.2⟩

/-- The session `and_session` and its tree are reached by the front end. -/
theorem workshop_and (allowed : sat_var_name → Prop) (ha : allowed "a") (hb : allowed "b")
    (hc : allowed "c") : Workshop allowed and_session [2, 1, 0] [and_tree] := by
  have h1 : Workshop allowed ⟨1, [0], [⟨0, some "a", true, true, false, false, false⟩]⟩
      [0] [] := Workshop.named Workshop.fresh ha (by decide)
  have h2 : Workshop allowed ⟨2, [0, 1], [⟨0, some "a", true, true, false, false, false⟩,
      ⟨1, some "b", true, true, false, false, false⟩]⟩ [1, 0] [] :=
    Workshop.named h1 hb (by decide)
  have h3 : Workshop allowed ⟨3, [0, 1, 2], [⟨0, some "a", true, true, false, false, false⟩,
      ⟨1, some "b", true, true, false, false, false⟩,
      ⟨2, some "c", true, true, false, false, false⟩]⟩ [2, 1, 0] [] :=
    Workshop.named h2 hc (by decide)
  have h4 : Workshop allowed ⟨3, [0, 1, 2], [⟨0, some "a", true, true, false, false, false⟩,
      ⟨1, some "b", true, true, false, false, false⟩,
      ⟨2, some "c", true, true, false, false, false⟩]⟩ [2, 1, 0]
      [.leaf_variable SAT_EXPRESSION_LEAF SAT_NOP 0 0] :=
    Workshop.leaf (v := 0) h3 (by decide) (by decide)
  have h5 : Workshop allowed ⟨3, [0, 1, 2], [⟨0, some "a", true, true, false, false, false⟩,
      ⟨1, some "b", true, true, false, false, false⟩,
      ⟨2, some "c", true, true, false, false, false⟩]⟩ [2, 1, 0]
      [.leaf_variable SAT_EXPRESSION_LEAF SAT_NOP 1 1,
       .leaf_variable SAT_EXPRESSION_LEAF SAT_NOP 0 0] :=
    Workshop.leaf (v := 1) h4 (by decide) (by decide)
  exact @Workshop.binary allowed _ _ _ _ _ _ _ _ SAT_AND h5 (List.Perm.swap _ _ _) (by decide)

/-- In a session of the front end the identity of a record is its address. -/
theorem uid_at_rank {heap : List sat_expression_variable} {c : Nat}
    (hu : heap.map (fun v => v.uid) = List.range c) {p : VarRef} (hp : p < heap.length) :
    uid_at heap p = p ∧ p < c := by
  have hlen : heap.length = c := by
    have := congrArg List.length hu
    simpa using this
  have hpc : p < c := by rw [← hlen]; exact hp
  obtain ⟨w, hw⟩ := ref_read hp
  have h1 : (heap.map (fun v => v.uid))[p]? = some w.uid := by simp [hw]
  rw [hu, List.getElem?_range hpc] at h1
  rw [uid_at_eq hw]
  exact ⟨(Option.some.inj h1).symm, hpc⟩

/-- The number of `ir` variables of operator nodes is the number of operator
nodes. -/
theorem operator_irs_length (t : sat_expression_node) :
    (operator_irs t).length = operator_nodes t := by
  induction t with
  | leaf_variable nt o i w => rfl
  | unary_operands nt o i x ih => simp [operator_irs, operator_nodes, ih]
  | binary_operands nt o i l r ihl ihr =>
    simp [operator_irs, operator_nodes, ihl, ihr]; omega

/-- The number of leaf variables is the number of leaves. -/
theorem leaf_variables_length (t : sat_expression_node) :
    (leaf_variables t).length = leaf_count t := by
  induction t with
  | leaf_variable nt o i w => rfl
  | unary_operands nt o i x ih => simp [leaf_variables, leaf_count, ih]
  | binary_operands nt o i l r ihl ihr =>
    simp [leaf_variables, leaf_count, ihl, ihr]; omega

/-- The calls of `sat_add_assignment_to_imp_matrix`, once the calls of the
expression are known: the restriction of the target, the calls of the
expression, and the `SAT_EQ` relation when the two pointers differ. -/
theorem assignment_calls {heap : List sat_expression_variable} {target : VarRef}
    {t : sat_expression_node} {calls : List MatrixCall} {T E : sat_expression_variable}
    (m : sat_imp_matrix) (ht : heap[target]? = some T)
    (hc : sat_add_expression_to_imp_matrix heap 0 [] t = some calls)
    (he : heap[t.ir]? = some E) :
    sat_add_assignment_to_imp_matrix heap m ⟨target, t⟩ =
      some (m ++ [MatrixCall.set_domain T.uid T.can_be_0 T.can_be_1] ++ calls ++
        (if target ≠ t.ir then [MatrixCall.add_relation T.uid E.uid SAT_EQ E.uid] else [])) := by
  simp only [sat_add_assignment_to_imp_matrix, sat_apply_unary_constraints, ht, sat_set_domain]
  rw [lowering_of_calls hc 0 _]
  simp only [he]
  by_cases hpq : target = t.ir
  · simp [hpq]
  · simp [hpq, sat_add_relation]

/-! ### Trees built by the builders -/

/-- C15 (definition before use).  In the calls the lowering makes for a tree
built by the builders, both operands of every relation are made known by an
earlier call: a domain restriction of that identity, or a relation of which it
is the result. -/
theorem C15_definition_before_use {allowed : sat_var_name → Prop} {s : Session}
    {declared : List VarRef} {pool : List sat_expression_node} (t : sat_expression_node)
    (h : Workshop allowed s declared pool) (ht : t ∈ pool) :
    ∃ calls, sat_add_expression_to_imp_matrix s.heap 0 [] t = some calls ∧
      defined_before_use calls := by
  obtain ⟨_, _, _, hp⟩ := workshop_general h
  obtain ⟨hb, hr⟩ := hp t ht
  exact ⟨emitted s.heap t, lowering_emitted s.heap t hb hr,
    emitted_defined_before_use s.heap t hb hr⟩

/-- Witness of C15: the tree `AND(a, b)`. -/
theorem C15_definition_before_use_witness :
    ∃ calls, sat_add_expression_to_imp_matrix and_session.heap 0 [] and_tree = some calls ∧
      defined_before_use calls :=
  C15_definition_before_use and_tree
    (workshop_and (fun _ => True) trivial trivial trivial) (List.mem_singleton.mpr rfl)

/-- C16 (one call per node).  For a tree built by the builders the lowering
registers as many relations as the tree has operator nodes and restricts as many
domains as it has leaves; the lowering of an assignment of the tree restricts
one domain more and registers at most one relation more. -/
theorem C16_call_counts {allowed : sat_var_name → Prop} {s : Session}
    {declared : List VarRef} {pool : List sat_expression_node} (t : sat_expression_node)
    (target : VarRef) (h : Workshop allowed s declared pool) (ht : t ∈ pool)
    (htarget : target < s.heap.length) :
    ∃ calls acalls,
      sat_add_expression_to_imp_matrix s.heap 0 [] t = some calls ∧
      calls.countP is_relation = operator_nodes t ∧
      calls.countP is_set_domain = leaf_count t ∧
      sat_add_assignment_to_imp_matrix s.heap [] ⟨target, t⟩ = some acalls ∧
      acalls.countP is_set_domain = leaf_count t + 1 ∧
      operator_nodes t ≤ acalls.countP is_relation ∧
      acalls.countP is_relation ≤ operator_nodes t + 1 := by
  obtain ⟨_, _, _, hp⟩ := workshop_general h
  obtain ⟨hb, hr⟩ := hp t ht
  obtain ⟨T, hT⟩ := ref_read htarget
  obtain ⟨E, hE⟩ := ref_read (ir_valid hr)
  have hcalls := lowering_emitted s.heap t hb hr
  have hrel : (emitted s.heap t).countP is_relation = operator_nodes t := by
    rw [countP_is_relation, emitted_results, List.length_map, operator_irs_length]
  have hset : (emitted s.heap t).countP is_set_domain = leaf_count t := by
    rw [countP_is_set_domain, emitted_restricted s.heap t hr, List.length_map,
      leaf_variables_length]
  refine ⟨emitted s.heap t, _, hcalls, hrel, hset, assignment_calls [] hT hcalls hE, ?_, ?_, ?_⟩
  · by_cases hpq : target = t.ir
    · simp [hpq, List.countP_append, List.countP_cons, is_set_domain, hset]
    · simp [hpq, List.countP_append, List.countP_cons, is_set_domain, hset]
  · by_cases hpq : target = t.ir
    · simp [hpq, List.countP_append, List.countP_cons, is_relation, hrel]
    · simp [hpq, List.countP_append, List.countP_cons, is_relation, hrel]
  · by_cases hpq : target = t.ir
    · simp [hpq, List.countP_append, List.countP_cons, is_relation, hrel]
    · simp [hpq, List.countP_append, List.countP_cons, is_relation, hrel]

/-- Witness of C16: the assignment `c := AND(a, b)`. -/
theorem C16_call_counts_witness :
    ∃ calls acalls,
      sat_add_expression_to_imp_matrix and_session.heap 0 [] and_tree = some calls ∧
      calls.countP is_relation = operator_nodes and_tree ∧
      calls.countP is_set_domain = leaf_count and_tree ∧
      sat_add_assignment_to_imp_matrix and_session.heap [] ⟨2, and_tree⟩ = some acalls ∧
      acalls.countP is_set_domain = leaf_count and_tree + 1 ∧
      operator_nodes and_tree ≤ acalls.countP is_relation ∧
      acalls.countP is_relation ≤ operator_nodes and_tree + 1 :=
  C16_call_counts and_tree 2
    (workshop_and (fun _ => True) trivial trivial trivial) (List.mem_singleton.mpr rfl)
    (by decide)

/-- C17 (no unknown operator).  Every node of a tree built by the builders is a
leaf, a `SAT_NOT` node with one child, or a node with two children and one of
the six binary operators; the lowering of the tree returns without printing the
warning of the unknown-operator branch. -/
theorem C17_unknown_operator_unreached {allowed : sat_var_name → Prop} {s : Session}
    {declared : List VarRef} {pool : List sat_expression_node} (t : sat_expression_node)
    (h : Workshop allowed s declared pool) (ht : t ∈ pool) :
    (∀ n ∈ subtrees t, known_node n = true) ∧
    ∀ (d : Nat) (m : sat_imp_matrix) (out : List sat_binary_op),
      ∃ m1, sat_add_expression_to_imp_matrix_printed s.heap d m out t = some (m1, out) := by
  obtain ⟨_, _, _, hp⟩ := workshop_general h
  obtain ⟨hb, hr⟩ := hp t ht
  exact ⟨known_of_builder_shape t hb,
    fun d m out => ⟨m ++ emitted s.heap t, printed_nothing s.heap t hb hr d m out⟩⟩

/-- Witness of C17: the tree `AND(a, b)`. -/
theorem C17_unknown_operator_unreached_witness :
    (∀ n ∈ subtrees and_tree, known_node n = true) ∧
    ∀ (d : Nat) (m : sat_imp_matrix) (out : List sat_binary_op),
      ∃ m1, sat_add_expression_to_imp_matrix_printed and_session.heap d m out and_tree =
        some (m1, out) :=
  C17_unknown_operator_unreached and_tree
    (workshop_and (fun _ => True) trivial trivial trivial) (List.mem_singleton.mpr rfl)

/-- C18 (identities stay in range).  Every identity passed to the matrix while
an assignment is lowered, whose target was returned by the registry and whose
tree was built by the builders, is below `sat_get_variable_count()`.  The
session has allocated fewer than `2 ^ 31 - 1` variables: the `unsigned int`
counter has not wrapped and every generated name was printed by `%d` as its
decimal digits. -/
theorem C18_identities_in_range {allowed : sat_var_name → Prop} {s : Session}
    {declared : List VarRef} {pool : List sat_expression_node} (t : sat_expression_node)
    (target : VarRef) (h : Workshop allowed s declared pool) (ht : t ∈ pool)
    (htarget : target < s.heap.length) (_hbound : s.heap.length + 1 < 2 ^ 31) :
    ∃ calls, sat_add_assignment_to_imp_matrix s.heap [] ⟨target, t⟩ = some calls ∧
      ∀ c ∈ calls, ∀ i ∈ call_ids c, i < sat_get_variable_count s := by
  obtain ⟨_, hu, _, hp⟩ := workshop_general h
  obtain ⟨hb, hr⟩ := hp t ht
  obtain ⟨T, hT⟩ := ref_read htarget
  obtain ⟨E, hE⟩ := ref_read (ir_valid hr)
  have hcalls := lowering_emitted s.heap t hb hr
  have hTr := uid_at_rank hu htarget
  have hEr := uid_at_rank hu (ir_valid hr)
  rw [uid_at_eq hT] at hTr
  rw [uid_at_eq hE] at hEr
  refine ⟨_, assignment_calls [] hT hcalls hE, ?_⟩
  intro c hc i hi
  simp only [List.nil_append, List.mem_append, List.mem_cons, List.mem_singleton,
    List.not_mem_nil, or_false] at hc
  have hTlt : T.uid < s.yy_id_counter := by rw [hTr.1]; exact hTr.2
  have hElt : E.uid < s.yy_id_counter := by rw [hEr.1]; exact hEr.2
  rcases hc with (hc | hc) | hc
  · subst hc
    simp only [call_ids, List.mem_singleton] at hi
    rw [hi]; exact hTlt
  · obtain ⟨p, hp1, hp2⟩ := emitted_ids s.heap t hr c hc i hi
    have := uid_at_rank hu hp1
    rw [hp2, this.1]; exact this.2
  · by_cases hpq : target = t.ir
    · simp [hpq] at hc
    · simp only [hpq, ne_eq, not_false_eq_true, if_true, List.mem_singleton] at hc
      subst hc
      simp only [call_ids, List.mem_cons, List.mem_singleton, List.not_mem_nil,
        or_false] at hi
      rcases hi with hi | hi | hi
      · rw [hi]; exact hTlt
      · rw [hi]; exact hElt
      · rw [hi]; exact hElt

/-- Witness of C18: the assignment `c := AND(a, b)`. -/
theorem C18_identities_in_range_witness :
    ∃ calls, sat_add_assignment_to_imp_matrix and_session.heap [] ⟨2, and_tree⟩ = some calls ∧
      ∀ c ∈ calls, ∀ i ∈ call_ids c, i < sat_get_variable_count and_session :=
  C18_identities_in_range and_tree 2
    (workshop_and (fun _ => True) trivial trivial trivial) (List.mem_singleton.mpr rfl)
    (by decide) (by decide)

/-! ### Distinct auxiliary variables -/

/-- The `ir` variables of the operator nodes of a tree whose references are
valid are records. -/
theorem operator_irs_lt {heap : List sat_expression_variable} (t : sat_expression_node) :
    refs_valid heap t = true → ∀ x ∈ operator_irs t, x < heap.length := by
  induction t with
  | leaf_variable nt o i w => intro _ x hx; simp [operator_irs] at hx
  | unary_operands nt o i c ih =>
    intro hr x hx
    simp only [refs_valid, Bool.and_eq_true, decide_eq_true_eq] at hr
    simp only [operator_irs, List.mem_append, List.mem_singleton] at hx
    rcases hx with hx | hx
    · exact ih hr.2 x hx
    · rw [hx]; exact hr.1
  | binary_operands nt o i l r ihl ihr =>
    intro hr x hx
    simp only [refs_valid, Bool.and_eq_true, decide_eq_true_eq] at hr
    simp only [operator_irs, List.mem_append, List.mem_singleton] at hx
    rcases hx with (hx | hx) | hx
    · exact ihr hr.2 x hx
    · exact ihl hr.1.2 x hx
    · rw [hx]; exact hr.1.1

/-- The `ir` variables of the operator nodes of a pool whose references are
valid are records. -/
theorem pool_irs_lt {heap : List sat_expression_variable} {pool : List sat_expression_node}
    (hp : ∀ t ∈ pool, builder_shape t = true ∧ refs_valid heap t = true) :
    ∀ x ∈ pool.flatMap operator_irs, x < heap.length := by
  intro x hx
  obtain ⟨t, ht, hxt⟩ := List.mem_flatMap.mp hx
  exact operator_irs_lt t (hp t ht).2 x hxt

/-- A name that is not of the form `_iv` followed by digits is not generated. -/
theorem not_generated {name : sat_var_name} (h : iv_form name = false) (k : Nat) :
    some name ≠ some (sat_expression_var_id_to_name k) := by
  intro hc
  have := iv_form_generated k
  rw [← Option.some.inj hc, h] at this
  cases this

/-- The invariant holds in the fresh state. -/
theorem auxinv_start : AuxInv Session.fresh [] [] where
  reached := by intro k hk; simp [registry_names, Session.fresh] at hk
  distinct := by simp
  generated := by intro x hx; simp at hx
  plain := by intro v hv; simp at hv

/-- The invariant after the allocation of a record that is returned to the
front end: an anonymous variable, or a variable declared under a name that is
not generated. -/
theorem auxinv_declare {s : Session} {declared : List VarRef}
    {pool : List sat_expression_node} (h : AuxInv s declared pool)
    (hd : ∀ v ∈ declared, v < s.heap.length)
    (hp : ∀ t ∈ pool, builder_shape t = true ∧ refs_valid s.heap t = true)
    (r : sat_expression_variable) (reg : List VarRef) (names : List (Option sat_var_name))
    (hr : ∀ k, r.name ≠ some (sat_expression_var_id_to_name k))
    (hnames : registry_names ⟨s.yy_id_counter + 1, reg, s.heap ++ [r]⟩ = names)
    (hnew : ∀ k, some (sat_expression_var_id_to_name k) ∈ names →
      some (sat_expression_var_id_to_name k) ∈ registry_names s) :
    AuxInv ⟨s.yy_id_counter + 1, reg, s.heap ++ [r]⟩ (s.heap.length :: declared) pool where
  reached := by
    intro k hk
    rw [hnames] at hk
    exact Nat.le_succ_of_le (h.reached k (hnew k hk))
  distinct := h.distinct
  generated := by
    intro x hx
    obtain ⟨k, hk⟩ := h.generated x hx
    exact ⟨k, by rw [stored_name_append r (pool_irs_lt hp x hx)]; exact hk⟩
  plain := by
    intro v hv k
    rcases List.mem_cons.mp hv with h1 | h1
    · rw [h1]
      simp only [stored_name, List.getElem?_concat_length]
      exact hr k
    · rw [stored_name_append r (hd v h1)]
      exact h.plain v h1 k

/-- The invariant after the front end has been returned a variable that
exists already. -/
theorem auxinv_again {s : Session} {declared : List VarRef}
    {pool : List sat_expression_node} (h : AuxInv s declared pool) {p : VarRef}
    {name : sat_var_name} (hname : stored_name s.heap p = some name)
    (hplain : iv_form name = false) : AuxInv s (p :: declared) pool where
  reached := h.reached
  distinct := h.distinct
  generated := h.generated
  plain := by
    intro v hv k
    rcases List.mem_cons.mp hv with h1 | h1
    · rw [h1, hname]; exact not_generated hplain k
    · exact h.plain v h1 k

/-- The invariant after the front end has written hints. -/
theorem auxinv_hints {s : Session} {declared : List VarRef}
    {pool : List sat_expression_node} (h : AuxInv s declared pool)
    (p : VarRef) (c0 c1 cd e0 e1 : Bool) :
    AuxInv { s with heap := set_hints s.heap p c0 c1 cd e0 e1 } declared pool where
  reached := by
    intro k hk
    have : registry_names { s with heap := set_hints s.heap p c0 c1 cd e0 e1 } =
        registry_names s := by
      simp only [registry_names]
      apply List.map_congr_left
      intro q _
      exact stored_name_set_hints _ _ _ _ _ _ _ _
    rw [this] at hk
    exact h.reached k hk
  distinct := h.distinct
  generated := by
    intro x hx
    obtain ⟨k, hk⟩ := h.generated x hx
    exact ⟨k, by simp only [stored_name_set_hints]; exact hk⟩
  plain := by
    intro v hv k
    simp only [stored_name_set_hints]
    exact h.plain v hv k

/-- The invariant after a leaf has been built. -/
theorem auxinv_leaf {s : Session} {declared : List VarRef}
    {pool : List sat_expression_node} (h : AuxInv s declared pool) (v : VarRef) :
    AuxInv s declared (.leaf_variable SAT_EXPRESSION_LEAF SAT_NOP v v :: pool) where
  reached := h.reached
  distinct := by simpa [List.flatMap_cons, operator_irs] using h.distinct
  generated := by simpa [List.flatMap_cons, operator_irs] using h.generated
  plain := h.plain

/-- The invariant after an operator node has been built over trees of the
pool: `n` is the new node, `children` its children, `rest` the other trees. -/
theorem auxinv_node {s s1 : Session} {declared : List VarRef}
    {pool rest : List sat_expression_node} (children : List sat_expression_node)
    (h : AuxInv s declared pool)
    (hok : registry_ok s = true) (hd : ∀ v ∈ declared, v < s.heap.length)
    (hp : ∀ t ∈ pool, builder_shape t = true ∧ refs_valid s.heap t = true)
    (hperm : pool.Perm (children ++ rest)) {ir : VarRef} (n : sat_expression_node)
    (hcall : sat_new_named_expression_variable
      (sat_expression_var_id_to_name (s.yy_id_counter + 1)) s = some (ir, s1))
    (hops : (operator_irs n).Perm (ir :: children.flatMap operator_irs)) :
    AuxInv s1 declared (n :: rest) := by
  have hfresh : some (sat_expression_var_id_to_name (s.yy_id_counter + 1)) ∉
      registry_names s := by
    intro hc
    have := h.reached _ hc
    omega
  rcases named_cases hok hcall with ⟨hmem, _⟩ | ⟨_, hir, hs1⟩
  · exact absurd hmem hfresh
  · subst hir hs1
    have hold := pool_irs_lt hp
    have hflat : (pool.flatMap operator_irs).Perm
        (children.flatMap operator_irs ++ rest.flatMap operator_irs) := by
      have := List.Perm.flatMap_right operator_irs hperm
      rwa [List.flatMap_append] at this
    have hnew : ((n :: rest).flatMap operator_irs).Perm
        (s.heap.length :: (children.flatMap operator_irs ++ rest.flatMap operator_irs)) := by
      rw [List.flatMap_cons]
      exact (List.Perm.append_right _ hops)
    constructor
    · intro k hk
      rw [registry_names_fresh _ hok] at hk
      rcases List.mem_append.mp hk with h1 | h1
      · exact Nat.le_succ_of_le (h.reached k h1)
      · rw [List.mem_singleton] at h1
        have := generated_name_inj (Option.some.inj h1)
        simp only [named_fresh]
        omega
    · rw [hnew.nodup_iff, List.nodup_cons]
      refine ⟨?_, hflat.nodup_iff.mp h.distinct⟩
      intro hc
      exact absurd (hold _ (hflat.mem_iff.mpr hc)) (Nat.lt_irrefl _)
    · intro x hx
      rcases List.mem_cons.mp (hnew.mem_iff.mp hx) with h1 | h1
      · rw [h1]
        exact ⟨s.yy_id_counter + 1, by simp [named_fresh, stored_name]⟩
      · have hxp := hflat.mem_iff.mpr h1
        obtain ⟨k, hk⟩ := h.generated x hxp
        exact ⟨k, by simp only [named_fresh]; rw [stored_name_append _ (hold x hxp)]; exact hk⟩
    · intro v hv k
      simp only [named_fresh]
      rw [stored_name_append _ (hd v hv)]
      exact h.plain v hv k

/-- In a session in which the front end declares no name of the form `_iv`
followed by digits, the invariant `AuxInv` holds. -/
theorem workshop_aux {s : Session} {declared : List VarRef}
    {pool : List sat_expression_node}
    (h : Workshop (fun name => iv_form name = false) s declared pool) :
    AuxInv s declared pool := by
  induction h with
  | fresh => exact auxinv_start
  | @anonymous s declared pool hw ih =>
    obtain ⟨hok, _, hd, hp⟩ := workshop_general hw
    exact auxinv_declare ih hd hp
      ⟨s.yy_id_counter, none, true, true, false, false, false⟩ s.yy_sat_variables
      (registry_names s) (fun k hc => by cases hc) (registry_names_anon hok) (fun _ hk => hk)
  | @named s s1 declared pool name p hw hallow hcall ih =>
    obtain ⟨hok, _, hd, hp⟩ := workshop_general hw
    rcases named_cases hok hcall with ⟨_, hs1, _, hname⟩ | ⟨_, hp1, hs1⟩
    · subst hs1
      exact auxinv_again ih hname hallow
    · subst hp1 hs1
      refine auxinv_declare ih hd hp
        ⟨s.yy_id_counter, some name, true, true, false, false, false⟩
        (s.yy_sat_variables ++ [s.heap.length]) (registry_names s ++ [some name])
        (fun k => not_generated hallow k) (registry_names_fresh name hok) ?_
      intro k hk
      rcases List.mem_append.mp hk with h1 | h1
      · exact h1
      · rw [List.mem_singleton] at h1
        exact absurd h1.symm (not_generated hallow k)
  | @hints s declared pool p c0 c1 cd e0 e1 hw ih => exact auxinv_hints ih p c0 c1 cd e0 e1
  | @leaf s s1 declared pool v n hw hv hcall ih =>
    obtain ⟨hn, hs⟩ := leaf_built hcall
    subst hs hn
    exact auxinv_leaf ih v
  | @unary s s1 declared pool rest c n op hw hperm hcall ih =>
    obtain ⟨hok, _, hd, hp⟩ := workshop_general hw
    obtain ⟨_, ir, hn, hnode⟩ := unary_built hcall
    subst hn
    refine auxinv_node [c] ih hok hd hp hperm _ (node_is_named hnode) ?_
    simp only [operator_irs, List.flatMap_cons, List.flatMap_nil, List.append_nil]
    exact List.perm_append_singleton _ _
  | @binary s s1 declared pool rest l r n op hw hperm hcall ih =>
    obtain ⟨hok, _, hd, hp⟩ := workshop_general hw
    obtain ⟨_, ir, hn, hnode⟩ := binary_built hcall
    subst hn
    refine auxinv_node [l, r] ih hok hd hp hperm _ (node_is_named hnode) ?_
    simp only [operator_irs, List.flatMap_cons, List.flatMap_nil, List.append_nil]
    exact (List.perm_append_singleton _ _).trans
      (List.Perm.cons _ List.perm_append_comm)

/-- C19, as stated, fails.  The front end declares only `a`, builds `NOT(a)`,
obtains the `ir` variable of that node from `sat_get_variable_from_id(1)`,
builds a leaf over it and builds `AND(NOT(a), leaf)`: the relation registered
for `NOT(a)` has result identity 1, which is the identity of a leaf variable of
the tree, a variable the front end did not declare.  The session has three
variables. -/
theorem C19_counterexample :
    ∃ s declared pool t calls,
      Workshop (fun name => iv_form name = false) s declared pool ∧ t ∈ pool ∧
      s.heap.length + 1 < 2 ^ 31 ∧ 1 ∈ leaf_variables t ∧ 1 ∉ declared ∧
      sat_get_variable_from_id s 1 = some (some 1) ∧
      sat_add_expression_to_imp_matrix s.heap 0 [] t = some calls ∧
      1 ∈ relation_results calls ∧ 1 ∈ restricted_ids calls := by
  have h1 : Workshop (fun name => iv_form name = false)
      ⟨1, [0], [⟨0, some "a", true, true, false, false, false⟩]⟩ [0] [] :=
    @Workshop.named _ _ _ _ _ "a" _ Workshop.fresh (by decide) (by decide)
  have h2 : Workshop (fun name => iv_form name = false)
      ⟨1, [0], [⟨0, some "a", true, true, false, false, false⟩]⟩ [0]
      [.leaf_variable SAT_EXPRESSION_LEAF SAT_NOP 0 0] :=
    Workshop.leaf (v := 0) h1 (by decide) (by decide)
  have h3 : Workshop (fun name => iv_form name = false)
      ⟨2, [0, 1], [⟨0, some "a", true, true, false, false, false⟩,
        ⟨1, some "_iv2", true, true, false, false, false⟩]⟩ [0]
      [.unary_operands SAT_EXPRESSION_NODE SAT_NOT 1
        (.leaf_variable SAT_EXPRESSION_LEAF SAT_NOP 0 0)] :=
    @Workshop.unary _ _ _ _ _ _ _ _ SAT_NOT h2 (List.Perm.refl _) (by decide)
  have h4 : Workshop (fun name => iv_form name = false)
      ⟨2, [0, 1], [⟨0, some "a", true, true, false, false, false⟩,
        ⟨1, some "_iv2", true, true, false, false, false⟩]⟩ [0]
      [.leaf_variable SAT_EXPRESSION_LEAF SAT_NOP 1 1,
       .unary_operands SAT_EXPRESSION_NODE SAT_NOT 1
        (.leaf_variable SAT_EXPRESSION_LEAF SAT_NOP 0 0)] :=
    Workshop.leaf (v := 1) h3 (by decide) (by decide)
  have h5 : Workshop (fun name => iv_form name = false)
      ⟨3, [0, 1, 2], [⟨0, some "a", true, true, false, false, false⟩,
        ⟨1, some "_iv2", true, true, false, false, false⟩,
        ⟨2, some "_iv3", true, true, false, false, false⟩]⟩ [0]
      [.binary_operands SAT_EXPRESSION_NODE SAT_AND 2
        (.unary_operands SAT_EXPRESSION_NODE SAT_NOT 1
          (.leaf_variable SAT_EXPRESSION_LEAF SAT_NOP 0 0))
        (.leaf_variable SAT_EXPRESSION_LEAF SAT_NOP 1 1)] :=
    @Workshop.binary _ _ _ _ _ _ _ _ _ SAT_AND h4 (List.Perm.swap _ _ _) (by decide)
  exact ⟨_, _, _, _,
    [MatrixCall.set_domain 1 true true, MatrixCall.set_domain 0 true true,
     MatrixCall.add_relation 1 0 SAT_NAND 0, MatrixCall.add_relation 2 1 SAT_AND 1],
    h5, List.mem_singleton.mpr rfl, by decide, by decide, by decide, by decide, by decide,
    by decide, by decide⟩

/-- C19 (distinct result identities), amended.  In a session in which the front
end declares no name of the form `_iv` followed by decimal digits, and which
has allocated fewer than `2 ^ 31 - 1` variables (the `unsigned int` counter has
not wrapped and `%d` has printed every generated name as its decimal digits),
for a tree built by the builders the result identities of the relations the
lowering registers are pairwise distinct, and each differs from the identity of
every leaf variable of the tree that the front end declared. -/
theorem C19_distinct_results {s : Session} {declared : List VarRef}
    {pool : List sat_expression_node} (t : sat_expression_node)
    (h : Workshop (fun name => iv_form name = false) s declared pool) (ht : t ∈ pool)
    (_hbound : s.heap.length + 1 < 2 ^ 31) :
    ∃ calls, sat_add_expression_to_imp_matrix s.heap 0 [] t = some calls ∧
      (relation_results calls).Nodup ∧
      ∀ i ∈ relation_results calls, ∀ v ∈ leaf_variables t, v ∈ declared →
        i ≠ uid_at s.heap v := by
  obtain ⟨_, hu, hd, hp⟩ := workshop_general h
  have haux := workshop_aux h
  obtain ⟨hb, hr⟩ := hp t ht
  have hops : (operator_irs t).map (uid_at s.heap) = operator_irs t := by
    conv_rhs => rw [← List.map_id (operator_irs t)]
    apply List.map_congr_left
    intro x hx
    exact (uid_at_rank hu (operator_irs_lt t hr x hx)).1
  refine ⟨emitted s.heap t, lowering_emitted s.heap t hb hr, ?_, ?_⟩
  · rw [emitted_results, hops]
    exact (List.nodup_flatMap.mp haux.distinct).1 t ht
  · rw [emitted_results, hops]
    intro i hi v _ hdec heq
    rw [(uid_at_rank hu (hd v hdec)).1] at heq
    obtain ⟨k, hk⟩ := haux.generated i (List.mem_flatMap.mpr ⟨t, ht, hi⟩)
    rw [heq] at hk
    exact haux.plain v hdec k hk

/-- Witness of C19: the tree `AND(a, b)`. -/
theorem C19_distinct_results_witness :
    ∃ calls, sat_add_expression_to_imp_matrix and_session.heap 0 [] and_tree = some calls ∧
      (relation_results calls).Nodup ∧
      ∀ i ∈ relation_results calls, ∀ v ∈ leaf_variables and_tree, v ∈ [2, 1, 0] →
        i ≠ uid_at and_session.heap v :=
  C19_distinct_results and_tree
    (workshop_and (fun name => iv_form name = false) (by decide) (by decide) (by decide))
    (List.mem_singleton.mpr rfl) (by decide)

/-! ### Lookup by identity in a session of the front end -/

/-- The walk of `sat_get_variable_from_id` over cells whose identity is their
address returns the cell of the identity looked up, if there is one. -/
theorem from_id_walk_spec (heap : List sat_expression_variable) (i : sat_var_idx) :
    ∀ l : List VarRef, (∀ q ∈ l, q < heap.length ∧ uid_at heap q = q) →
      from_id_walk heap i l = some (if i ∈ l then some i else none) := by
  intro l
  induction l with
  | nil => intro _; rfl
  | cons q qs ih =>
    intro hall
    obtain ⟨hq, hu⟩ := hall q (List.mem_cons_self _ _)
    obtain ⟨w, hw⟩ := ref_read hq
    rw [uid_at_eq hw] at hu
    simp only [from_id_walk, hw, hu]
    by_cases h : q = i
    · simp [h]
    · have hne : ¬ i = q := fun hc => h hc.symm
      rw [if_neg h, ih (fun x hx => hall x (List.mem_cons_of_mem _ hx))]
      simp [hne]

/-- In a session of the front end `sat_get_variable_from_id` finds exactly the
variables of the registry list: the named ones. -/
theorem lookup_spec {allowed : sat_var_name → Prop} {s : Session}
    {declared : List VarRef} {pool : List sat_expression_node}
    (h : Workshop allowed s declared pool) (i : sat_var_idx) :
    sat_get_variable_from_id s i =
      some (if i ∈ s.yy_sat_variables then some i else none) := by
  obtain ⟨hok, hu, _, _⟩ := workshop_general h
  apply from_id_walk_spec
  intro q hq
  have hlt := registry_lt hok q hq
  exact ⟨hlt, (uid_at_rank hu hlt).1⟩

end Sat
